import Mathlib

/-!
Verification development for the Liberty-format parser of this repository
(file src/libertyParser.py).  The parser, the cell-subsetting pre-pass
(genCellLibFile), the tree reorganizer (organizeData), the query extractors
(getCellList, getCellArea, getLibPinInfo) and the round-trip serializer
(restoreLib) are embedded shallowly below.  Python regular expressions are
modelled by a small executable backtracking matcher over flat token
sequences; each compiled pattern of the source is transcribed token by
token.  Lines are modelled without their trailing newline character, which
is faithful because every pattern of the source either ends in a dollar
anchor (which in Python matches just before a trailing newline) or is a
prefix match.
-/

namespace LibertyParse

/-- Characters matched by Python's regex class backslash-s. -/
def wsC (c : Char) : Bool :=
  c = ' ' || c = '\t' || c = '\n' || c = '\r' || c = '\x0b' || c = '\x0c'

/-- Characters matched by Python's regex class backslash-S. -/
def nwsC (c : Char) : Bool := !(wsC c)

/-- Characters matched by Python's regex dot: anything but newline. -/
def anyC (c : Char) : Bool := !(c = '\n')

/-- One token of a flat regular pattern: a literal character, or a
greedy/lazy repetition of a character class. -/
inductive Tok where
  | lit (c : Char)
  | star (p : Char → Bool) (greedy : Bool)
  | plus (p : Char → Bool) (greedy : Bool)

/-- A token paired with the capture-group number its consumed characters
belong to (if any). -/
abbrev TTok := Tok × Option Nat

/-- Length of the longest prefix of the string whose characters all
satisfy the class. -/
def runLen (p : Char → Bool) : List Char → Nat
  | [] => 0
  | c :: cs => if p c then runLen p cs + 1 else 0

/-- First successful value of the function on the candidate list. -/
def firstSome {α : Type} (f : Nat → Option α) : List Nat → Option α
  | [] => none
  | k :: ks =>
    match f k with
    | some r => some r
    | none => firstSome f ks

/-- Backtracking matcher for a flat pattern.  On success it returns, for
each token in order, the capture tag and the characters that token
consumed.  Greedy repetitions try the longest feasible consumption first,
lazy ones the shortest, exactly as Python's backtracking engine does on
patterns without alternation or nested repetition (which is all the
source uses).  The whole string must be consumed; patterns used as prefix
matches in the source carry an explicit trailing dot-star token. -/
def mt (toks : List TTok) (s : List Char) : Option (List (Option Nat × List Char)) :=
  match toks with
  | [] => if s = [] then some [] else none
  | (Tok.lit c, g) :: ts =>
    match s with
    | [] => none
    | x :: s' => if x = c then (mt ts s').map (fun r => (g, [c]) :: r) else none
  | (Tok.star p gr, g) :: ts =>
    let m := runLen p s
    let ks := if gr then (List.range (m+1)).reverse else List.range (m+1)
    firstSome (fun k => (mt ts (s.drop k)).map (fun r => (g, s.take k) :: r)) ks
  | (Tok.plus p gr, g) :: ts =>
    let m := runLen p s
    let ks0 := (List.range m).map (fun x => x + 1)
    let ks := if gr then ks0.reverse else ks0
    firstSome (fun k => (mt ts (s.drop k)).map (fun r => (g, s.take k) :: r)) ks

/-- Characters captured by group g in a match result. -/
def capGet (r : List (Option Nat × List Char)) (g : Nat) : List Char :=
  (r.filterMap (fun x => if x.1 = some g then some x.2 else none)).flatten

/-- Abbreviation turning a string literal into the character list the
matcher works on. -/
def lc (s : String) : List Char := s.toList

/-- Source pattern _group_re. -/
def groupPat : List TTok :=
  [(Tok.star wsC true, some 1), (Tok.plus nwsC true, some 2), (Tok.star wsC true, none),
   (Tok.lit '(', none), (Tok.star anyC false, some 3), (Tok.lit ')', none),
   (Tok.star wsC true, none), (Tok.lit '\x7b', none), (Tok.star wsC true, none)]

/-- Source pattern _group_done_re. -/
def groupDonePat : List TTok :=
  [(Tok.star wsC true, none), (Tok.lit '\x7d', none), (Tok.star wsC true, none)]

/-- Source pattern _simple_attr_re. -/
def simpleAttrPat : List TTok :=
  [(Tok.star wsC true, some 1), (Tok.plus nwsC true, some 2), (Tok.star wsC true, none),
   (Tok.lit ':', none), (Tok.star wsC true, none), (Tok.plus anyC true, some 3),
   (Tok.star wsC true, none), (Tok.lit ';', none), (Tok.star anyC true, none)]

/-- Source pattern _special_simple_attr_re. -/
def specialSimpleAttrPat : List TTok :=
  [(Tok.star wsC true, some 1), (Tok.plus nwsC true, some 2), (Tok.star wsC true, none),
   (Tok.lit ':', none), (Tok.star wsC true, none), (Tok.plus anyC true, some 3),
   (Tok.star wsC true, none)]

/-- Source pattern _complex_attr_re; group 3 spans the parenthesised part
including the parentheses. -/
def complexAttrPat : List TTok :=
  [(Tok.star wsC true, some 1), (Tok.plus nwsC true, some 2), (Tok.star wsC true, none),
   (Tok.lit '(', some 3), (Tok.plus anyC true, some 3), (Tok.lit ')', some 3),
   (Tok.star wsC true, none), (Tok.lit ';', none), (Tok.star anyC true, none)]

/-- Source pattern _special_complex_attr_re. -/
def specialComplexAttrPat : List TTok :=
  [(Tok.star wsC true, some 1), (Tok.plus nwsC true, some 2), (Tok.star wsC true, none),
   (Tok.lit '(', some 3), (Tok.plus anyC true, some 3), (Tok.lit ')', some 3),
   (Tok.star wsC true, none)]

/-- Source pattern _multilines_re.  The source writes it as a raw string
with a doubled backslash followed by s and a star, so it matches lines
whose visible content ends in a literal backslash optionally followed by
letters s. -/
def multilinesPat : List TTok :=
  [(Tok.star anyC true, some 1), (Tok.lit '\\', none),
   (Tok.star (fun c => c = 's') true, none)]

/-- Source pattern _multilines_done_re. -/
def multilinesDonePat : List TTok :=
  [(Tok.star anyC true, some 1), (Tok.lit ';', some 1), (Tok.star wsC true, none)]

/-- Source pattern _comment_start_re. -/
def commentStartPat : List TTok :=
  [(Tok.star wsC true, some 1), (Tok.lit '/', none), (Tok.lit '*', none),
   (Tok.star anyC true, none)]

/-- Source pattern _comment_end_re, used with match; since it starts with
dot-star and ends with a dollar anchor it holds exactly when the line ends
in a comment-close marker followed only by whitespace.  The same language
is what the genCellLibFile pre-scan's comment_end_re.search accepts. -/
def commentEndPat : List TTok :=
  [(Tok.star anyC true, none), (Tok.lit '*', none), (Tok.lit '/', none),
   (Tok.star wsC true, none)]

/-- Source pattern _empty_line_re. -/
def emptyLinePat : List TTok := [(Tok.star wsC true, none)]

/-- The pre-scan's cell_re in genCellLibFile. -/
def cellPat : List TTok :=
  [(Tok.star wsC true, none), (Tok.lit 'c', none), (Tok.lit 'e', none),
   (Tok.lit 'l', none), (Tok.lit 'l', none), (Tok.star wsC true, none),
   (Tok.lit '(', none), (Tok.star anyC false, some 1), (Tok.lit ')', none),
   (Tok.star wsC true, none), (Tok.lit '\x7b', none), (Tok.star wsC true, none)]

/-- The pre-scan's comment_start_re in genCellLibFile: a prefix match, so
a trailing dot-star token makes it total over newline-free lines. -/
def preCommentStartPat : List TTok :=
  [(Tok.star wsC true, none), (Tok.lit '/', none), (Tok.lit '*', none),
   (Tok.star anyC true, none)]

/-- Value of one attribute key: a plain string on first occurrence, a list
after duplicate complex-attribute accumulation. -/
inductive AttrVal where
  | str (v : List Char)
  | lst (vs : List (List Char))
deriving Repr, DecidableEq

/-- Lookup in an insertion-ordered dictionary (Python dict semantics). -/
def dGet {V : Type} : List (List Char × V) → List Char → Option V
  | [], _ => none
  | (k', v) :: d, k => if k' = k then some v else dGet d k

/-- Assignment in an insertion-ordered dictionary: an existing key keeps
its position and gets the new value, a new key is appended. -/
def dSet {V : Type} : List (List Char × V) → List Char → V → List (List Char × V)
  | [], k, v => [(k, v)]
  | (k', v') :: d, k, v => if k' = k then (k, v) :: d else (k', v') :: dSet d k v

/-- One group record as built by the parsing loop.  The structural entries
fatherGroupNum/depth/type/name of the Python dict are fields; attribute
keys live in their own insertion-ordered dictionary.  (An input attribute
whose key collides with a structural entry name is outside this model.) -/
structure GroupRec where
  fatherGroupNum : Int
  depth : Nat
  type : List Char
  name : List Char
  attrs : List (List Char × AttrVal)
deriving Repr, DecidableEq

/-- Python list read with possibly negative index. -/
def pyGet {α : Type} (l : List α) (i : Int) : Option α :=
  if i < 0 then
    let j : Int := (l.length : Int) + i
    if j < 0 then none else l.get? j.toNat
  else l.get? i.toNat

/-- Python in-place update through a possibly negative index; none models
the IndexError raised when the index is out of range. -/
def pyModify {α : Type} (l : List α) (i : Int) (f : α → α) : Option (List α) :=
  if i < 0 then
    let j : Int := (l.length : Int) + i
    if j < 0 then none
    else match l.get? j.toNat with
      | some a => some (l.set j.toNat (f a))
      | none => none
  else match l.get? i.toNat with
    | some a => some (l.set i.toNat (f a))
    | none => none

/-- getLastOpenedGroupNum of the source: top of the open-group stack, -1
when the stack is empty. -/
def lastOpenedOf (opened : List Nat) : Int :=
  match opened.getLast? with
  | some n => (n : Int)
  | none => -1

/-- Mutable state of the libertyParser parsing loop. -/
structure PState where
  multi : List Char
  commentMark : Bool
  groupList : List GroupRec
  opened : List Nat
  lastOpened : Int
deriving Repr, DecidableEq

/-- Duplicate-key handling for complex attributes (source lines 190-196). -/
def complexInsert (attrs : List (List Char × AttrVal)) (k v : List Char) :
    List (List Char × AttrVal) :=
  match dGet attrs k with
  | some (AttrVal.lst l) => dSet attrs k (AttrVal.lst (l ++ [v]))
  | some (AttrVal.str v0) => dSet attrs k (AttrVal.lst [v0, v])
  | none => dSet attrs k (AttrVal.str v)

/-- Store a complex attribute on the last opened group; none models the
IndexError when the negative index misses (empty group list). -/
def applyComplex (st : PState) (k v : List Char) : Option PState :=
  (pyModify st.groupList st.lastOpened
      (fun g => { g with attrs := complexInsert g.attrs k v })).map
    (fun gl => { st with groupList := gl })

/-- Store a simple attribute (plain overwriting assignment, source
line 201). -/
def applySimple (st : PState) (k v : List Char) : Option PState :=
  (pyModify st.groupList st.lastOpened
      (fun g => { g with attrs := dSet g.attrs k (AttrVal.str v) })).map
    (fun gl => { st with groupList := gl })

/-- The elif chain of the parsing loop, applied to one (already
continuation-joined) logical line; branch order follows the source. -/
def classify (st : PState) (line : List Char) : Option PState :=
  match mt complexAttrPat line with
  | some r => applyComplex st (capGet r 2) (capGet r 3)
  | none =>
  match mt simpleAttrPat line with
  | some r => applySimple st (capGet r 2) (capGet r 3)
  | none =>
  match mt groupPat line with
  | some r =>
    let lo := lastOpenedOf st.opened
    let g : GroupRec :=
      { fatherGroupNum := lo, depth := (capGet r 1).length,
        type := capGet r 2, name := capGet r 3, attrs := [] }
    let op := st.opened ++ [st.groupList.length]
    some { st with groupList := st.groupList ++ [g], opened := op,
                   lastOpened := lastOpenedOf op }
  | none =>
  if (mt groupDonePat line).isSome then
    match st.opened with
    | [] => none
    | _ :: _ =>
      let op := st.opened.dropLast
      some { st with opened := op, lastOpened := lastOpenedOf op }
  else if (mt commentStartPat line).isSome then
    if (mt commentEndPat line).isSome then some st
    else some { st with commentMark := true }
  else if (mt emptyLinePat line).isSome then some st
  else
  match mt specialComplexAttrPat line with
  | some r => applyComplex st (capGet r 2) (capGet r 3)
  | none =>
  match mt specialSimpleAttrPat line with
  | some r => applySimple st (capGet r 2) (capGet r 3)
  | none => some st

/-- Processing of one physical line of the file: comment skipping,
continuation joining, then classification.  none models an unhandled
exception aborting the parse. -/
def procLine (st : PState) (line : List Char) : Option PState :=
  if st.commentMark then
    some (if (mt commentEndPat line).isSome then { st with commentMark := false } else st)
  else
  match mt multilinesPat line with
  | some r => some { st with multi := st.multi ++ capGet r 1 }
  | none =>
  if st.multi = [] then classify st line
  else
    match mt multilinesDonePat line with
    | some r =>
      (classify st (st.multi ++ capGet r 1)).map (fun st' => { st' with multi := [] })
    | none => some { st with multi := [] }

/-- Run the parsing loop over a list of lines from a given state. -/
def runLines : PState → List (List Char) → Option PState
  | st, [] => some st
  | st, l :: ls =>
    match procLine st l with
    | some st' => runLines st' ls
    | none => none

/-- Initial state of the parsing loop. -/
def initState : PState :=
  { multi := [], commentMark := false, groupList := [], opened := [], lastOpened := -1 }

/-- A group after tree reorganization: the flat record together with its
child list (the value of the dict key group, which organizeData inserts
after every attribute key, so children always follow attributes). -/
inductive GTree where
  | node (fatherGroupNum : Int) (depth : Nat) (type name : List Char)
      (attrs : List (List Char × AttrVal)) (children : List GTree)
deriving Repr

/-- Father index stored in a reorganized group. -/
def GTree.fatherGroupNum : GTree → Int
  | .node f _ _ _ _ _ => f

/-- Depth stored in a reorganized group. -/
def GTree.depth : GTree → Nat
  | .node _ d _ _ _ _ => d

/-- Type keyword of a reorganized group. -/
def GTree.type : GTree → List Char
  | .node _ _ t _ _ _ => t

/-- Name of a reorganized group. -/
def GTree.name : GTree → List Char
  | .node _ _ _ n _ _ => n

/-- Attribute dictionary of a reorganized group. -/
def GTree.attrs : GTree → List (List Char × AttrVal)
  | .node _ _ _ _ a _ => a

/-- Children of a reorganized group. -/
def GTree.children : GTree → List GTree
  | .node _ _ _ _ _ c => c

/-- Pack a flat record and its accumulated children into a tree node. -/
def toTree (g : GroupRec) (ch : List GTree) : GTree :=
  GTree.node g.fatherGroupNum g.depth g.type g.name g.attrs ch

/-- One iteration of organizeData's backward pass: record i is inserted at
the front of its father's child list (unless the father is -1).  Because
the pass runs from the highest index down, record i's own child list is
already complete here, so inserting a snapshot is equivalent to the
source's insertion of a dict reference.  A father index other than -1
that is out of range would be an IndexError (none). -/
def orgStep (arr : List (GroupRec × List GTree)) (i : Nat) :
    Option (List (GroupRec × List GTree)) :=
  match arr.get? i with
  | none => none
  | some (g, ch) =>
    if g.fatherGroupNum = -1 then some arr
    else pyModify arr g.fatherGroupNum (fun x => (x.1, toTree g ch :: x.2))

/-- The backward pass of organizeData, processing indices i, i-1, ..., 1
(index 0 is excluded exactly as in the source's range). -/
def orgLoop : List (GroupRec × List GTree) → Nat → Option (List (GroupRec × List GTree))
  | arr, 0 => some arr
  | arr, i + 1 =>
    match orgStep arr (i + 1) with
    | some arr' => orgLoop arr' i
    | none => none

/-- organizeData of the source: reorganize the flat group list into a
tree and return the first record.  On an empty group list the source's
final groupList[0] raises an unhandled IndexError, modelled as none. -/
def organizeData (gl : List GroupRec) : Option GTree :=
  match orgLoop (gl.map (fun g => (g, []))) (gl.length - 1) with
  | some arr =>
    match arr.head? with
    | some x => some (toTree x.1 x.2)
    | none => none
  | none => none

/-- Parser construction on an already-opened file content (no cellList):
parse the lines, then reorganize.  none models an unhandled exception. -/
def constructTree (lines : List (List Char)) : Option GTree :=
  match runLines initState lines with
  | some st => organizeData st.groupList
  | none => none

/-- Python str.strip of whitespace on both ends. -/
def stripWs (s : List Char) : List Char :=
  ((s.dropWhile (fun c => wsC c)).reverse.dropWhile (fun c => wsC c)).reverse

/-- The quote stripping genCellLibFile applies to a scanned cell name. -/
def stripQuotes (s : List Char) : List Char :=
  if s.head? = some '"' && s.getLast? = some '"' then (s.drop 1).dropLast else s

/-- State of genCellLibFile's comment-aware pre-scan. -/
structure ScanSt where
  inComment : Bool
  locs : List (List Char × Nat)
deriving Repr, DecidableEq

/-- One line of the pre-scan: comment skipping first, then the cell
pattern; a recognized cell name is stripped and stored with its 1-based
line number (an OrderedDict assignment keeps the position of an existing
key). -/
def preScanStep (s : ScanSt) (idx : Nat) (line : List Char) : ScanSt :=
  if s.inComment then
    if (mt commentEndPat line).isSome then { s with inComment := false } else s
  else if (mt preCommentStartPat line).isSome then
    if (mt commentEndPat line).isSome then s else { s with inComment := true }
  else
    match mt cellPat line with
    | some r => { s with locs := dSet s.locs (stripQuotes (stripWs (capGet r 1))) idx }
    | none => s

/-- The pre-scan over all lines, numbering from 1. -/
def preScanAux : ScanSt → Nat → List (List Char) → ScanSt
  | s, _, [] => s
  | s, i, l :: ls => preScanAux (preScanStep s i l) (i + 1) ls

/-- Recorded cell locations of genCellLibFile's pre-scan. -/
def preScan (lines : List (List Char)) : List (List Char × Nat) :=
  (preScanAux { inComment := false, locs := [] } 1 lines).locs

/-- Python slice l[a:b] for nonnegative bounds. -/
def pySlice {α : Type} (l : List α) (a b : Nat) : List α :=
  (l.take b).drop a

/-- Recorded line of a cell name (only used on recorded names). -/
def locLookup (locs : List (List Char × Nat)) (c : List Char) : Nat :=
  match dGet locs c with
  | some n => n
  | none => 0

/-- The line range genCellLibFile writes for one requested cell: from its
recorded line to just before the next recorded cell's line, or to the end
of file when it is the last recorded cell. -/
def cellSlice (lines : List (List Char)) (locs : List (List Char × Nat))
    (allCells : List (List Char)) (c : List Char) : List (List Char) :=
  let s := locLookup locs c
  let idx := allCells.indexOf c
  if idx = allCells.length - 1 then pySlice lines (s - 1) lines.length
  else
    match allCells.get? (idx + 1) with
    | some nc => pySlice lines (s - 1) (locLookup locs nc - 1)
    | none => []

/-- Outcome of genCellLibFile: missing cells reported together before a
non-zero exit (no output written), an unhandled exception, or the written
reduced file. -/
inductive GenRes where
  | missing (cells : List (List Char))
  | crash
  | ok (out : List (List Char))
deriving Repr, DecidableEq

/-- genCellLibFile of the source: comment-aware pre-scan, missing-cell
check, then header plus per-requested-cell ranges plus one synthetic
closing brace.  When no cell was recorded at all (reachable only with an
empty request list) the source's all_cells_in_file[0] raises IndexError. -/
def genCellLibFile (lines : List (List Char)) (cellList : List (List Char)) : GenRes :=
  let locs := preScan lines
  let allCells := locs.map (fun x => x.1)
  let miss := cellList.filter (fun c => ¬ c ∈ allCells)
  if miss ≠ [] then GenRes.missing miss
  else
    match allCells.head? with
    | none => GenRes.crash
    | some c0 =>
      let header := lines.take (locLookup locs c0 - 1)
      let body := (cellList.map (cellSlice lines locs allCells)).flatten
      GenRes.ok (header ++ body ++ [lc "\x7d"])

/-- Parser construction with a non-empty cellList: parse the file written
by genCellLibFile; a missing cell is a clean non-zero exit, which is not a
parse result either, so both failure modes map to none here and are told
apart through genCellLibFile itself. -/
def constructTreeWithCells (lines : List (List Char)) (cellList : List (List Char)) :
    Option GTree :=
  match genCellLibFile lines cellList with
  | GenRes.ok out => constructTree out
  | _ => none

/-- getCellList of the source: names of the root's children whose type is
cell, in child-list order. -/
def getCellList (t : GTree) : List (List Char) :=
  t.children.foldl (fun acc g => if g.type = lc "cell" then acc ++ [g.name] else acc) []

/-- Python-style values as produced by the query extractors: strings,
lists and insertion-ordered dictionaries. -/
inductive PyVal where
  | s (v : List Char)
  | l (vs : List PyVal)
  | d (entries : List (List Char × PyVal))
deriving Repr

/-- An attribute value as the extractors copy it into their result. -/
def avToPy : AttrVal → PyVal
  | AttrVal.str v => PyVal.s v
  | AttrVal.lst l => PyVal.l (l.map PyVal.s)

/-- getCellArea of the source: per-cell area with empty-string default,
then an empty-string entry for each requested name that matched no cell. -/
def getCellArea (t : GTree) (cellList : List (List Char)) : List (List Char × PyVal) :=
  let d1 := t.children.foldl
    (fun acc g =>
      if g.type = lc "cell" then
        if cellList = [] ∨ g.name ∈ cellList then
          dSet acc g.name
            (match dGet g.attrs (lc "area") with
             | some v => avToPy v
             | none => PyVal.s [])
        else acc
      else acc) []
  cellList.foldl
    (fun acc cn => if (dGet acc cn).isNone then acc ++ [(cn, PyVal.s [])] else acc) d1

/-- setdefault of a dict value followed by a mutation of that value: the
entry keeps its position; a missing key is appended with the mutated empty
dict.  (The source only ever navigates through dict-valued entries here.) -/
def dModifyD (d : List (List Char × PyVal)) (k : List Char)
    (f : List (List Char × PyVal) → List (List Char × PyVal)) :
    List (List Char × PyVal) :=
  match dGet d k with
  | some (PyVal.d e) => dSet d k (PyVal.d (f e))
  | some _ => dSet d k (PyVal.d (f []))
  | none => d ++ [(k, PyVal.d (f []))]

/-- setdefault of a list value followed by an append. -/
def dAppendL (d : List (List Char × PyVal)) (k : List Char) (v : PyVal) :
    List (List Char × PyVal) :=
  match dGet d k with
  | some (PyVal.l l) => dSet d k (PyVal.l (l ++ [v]))
  | some _ => d
  | none => d ++ [(k, PyVal.l [v])]

/-- Plain setdefault of an empty dict value. -/
def dSetdefaultD (d : List (List Char × PyVal)) (k : List Char) :
    List (List Char × PyVal) :=
  match dGet d k with
  | some _ => d
  | none => d ++ [(k, PyVal.d [])]

/-- _getTimingGroupInfo of the source. -/
def getTimingGroupInfo (g : GTree) : List (List Char × PyVal) :=
  if ¬ g.type = lc "timing" then []
  else
    let base := [lc "related_pin", lc "related_pg_pin", lc "timing_sense",
                 lc "timing_type", lc "when"].foldl
      (fun acc k =>
        match dGet g.attrs k with
        | some v => acc ++ [(k, avToPy v)]
        | none => acc) []
    if g.children.isEmpty then base
    else
      let tt := g.children.foldl
        (fun acc c =>
          let inner :=
            (if ¬ c.name = [] then [(lc "template_name", PyVal.s c.name)] else []) ++
            ([lc "sigma_type", lc "index_1", lc "index_2", lc "values"].foldl
              (fun a k =>
                match dGet c.attrs k with
                | some v => a ++ [(k, avToPy v)]
                | none => a) [])
          dSet acc c.type (PyVal.d inner)) []
      base ++ [(lc "table_type", PyVal.d tt)]

/-- _getInternalPowerGroupInfo of the source. -/
def getInternalPowerGroupInfo (g : GTree) : List (List Char × PyVal) :=
  if ¬ g.type = lc "internal_power" then []
  else
    let base := [lc "related_pin", lc "related_pg_pin", lc "when"].foldl
      (fun acc k =>
        match dGet g.attrs k with
        | some v => acc ++ [(k, avToPy v)]
        | none => acc) []
    if g.children.isEmpty then base
    else
      let tt := g.children.foldl
        (fun acc c =>
          let inner := [lc "index_1", lc "index_2", lc "values"].foldl
            (fun a k =>
              match dGet c.attrs k with
              | some v => a ++ [(k, avToPy v)]
              | none => a) []
          dSet acc c.type (PyVal.d inner)) []
      base ++ [(lc "table_type", PyVal.d tt)]

/-- _getPinInfo of the source. -/
def getPinInfo (g : GTree) : List (List Char × PyVal) :=
  if g.type = lc "pin" ∧ g.children.isEmpty = false then
    g.children.foldl
      (fun acc c =>
        if c.type = lc "timing" then
          dAppendL acc (lc "timing") (PyVal.d (getTimingGroupInfo c))
        else if c.type = lc "internal_power" then
          dAppendL acc (lc "internal_power") (PyVal.d (getInternalPowerGroupInfo c))
        else acc) []
  else []

/-- Python split on one separator character (never returns an empty
list). -/
def splitCh (sep : Char) : List Char → List (List Char)
  | [] => [[]]
  | c :: cs =>
    let r := splitCh sep cs
    if c = sep then [] :: r
    else
      match r with
      | x :: xs => (c :: x) :: xs
      | [] => [[c]]

/-- _getBundleInfo of the source.  A list-valued members attribute would
be a TypeError in the source and is left out of the model. -/
def getBundleInfo (g : GTree) (pinList : List (List Char)) : List (List Char × PyVal) :=
  let b0 :=
    match dGet g.attrs (lc "members") with
    | some (AttrVal.str mem) =>
      let cleaned := mem.filter (fun c => ¬ (c = '(' ∨ c = '"' ∨ c = ')' ∨ wsC c = true))
      let pins := splitCh ',' cleaned
      pins.foldl (fun acc p => dModifyD acc (lc "pin") (fun e => dSetdefaultD e (stripWs p)))
        (dSetdefaultD [] (lc "pin"))
    | _ => []
  if g.children.isEmpty then b0
  else
    g.children.foldl
      (fun acc c =>
        if c.type = lc "pin" then
          if ¬ pinList = [] ∧ ¬ c.name ∈ pinList then acc
          else
            let acc1 := dSetdefaultD acc (lc "pin")
            let pd := getPinInfo c
            if pd.isEmpty then acc1
            else dModifyD acc1 (lc "pin") (fun e => dSet e c.name (PyVal.d pd))
        else if c.type = lc "timing" then
          dAppendL acc (lc "timing") (PyVal.d (getTimingGroupInfo c))
        else if c.type = lc "internal_power" then
          dAppendL acc (lc "internal_power") (PyVal.d (getInternalPowerGroupInfo c))
        else acc) b0

/-- _getBusInfo of the source. -/
def getBusInfo (g : GTree) (pinList : List (List Char)) : List (List Char × PyVal) :=
  if g.children.isEmpty then []
  else
    g.children.foldl
      (fun acc c =>
        if c.type = lc "pin" then
          if ¬ pinList = [] ∧ ¬ c.name ∈ pinList then acc
          else
            let acc1 := dSetdefaultD acc (lc "pin")
            let pd := getPinInfo c
            if pd.isEmpty then acc1
            else dModifyD acc1 (lc "pin") (fun e => dSet e c.name (PyVal.d pd))
        else if c.type = lc "timing" then
          dAppendL acc (lc "timing") (PyVal.d (getTimingGroupInfo c))
        else if c.type = lc "internal_power" then
          dAppendL acc (lc "internal_power") (PyVal.d (getInternalPowerGroupInfo c))
        else acc) []

/-- The nested setdefault chain of getLibPinInfo writing one leaf. -/
def setNested3 (top : List (List Char × PyVal)) (k1 k2 k3 kp : List Char) (v : PyVal) :
    List (List Char × PyVal) :=
  dModifyD top k1 (fun d1 => dModifyD d1 k2 (fun d2 => dModifyD d2 k3 (fun d3 => dSet d3 kp v)))

/-- getLibPinInfo of the source. -/
def getLibPinInfo (t : GTree) (cellList bundleList busList pinList : List (List Char)) :
    List (List Char × PyVal) :=
  if t.children.isEmpty then []
  else
    t.children.foldl
      (fun acc g =>
        if g.type = lc "cell" then
          if ¬ cellList = [] ∧ ¬ g.name ∈ cellList then acc
          else if g.children.isEmpty then acc
          else
            g.children.foldl
              (fun a c =>
                if c.type = lc "pin" then
                  if ¬ pinList = [] ∧ ¬ c.name ∈ pinList then a
                  else
                    let pd := getPinInfo c
                    if pd.isEmpty then a
                    else setNested3 a (lc "cell") g.name (lc "pin") c.name (PyVal.d pd)
                else if c.type = lc "bundle" then
                  if ¬ bundleList = [] ∧ ¬ c.name ∈ bundleList then a
                  else
                    let bd := getBundleInfo c pinList
                    if bd.isEmpty then a
                    else setNested3 a (lc "cell") g.name (lc "bundle") c.name (PyVal.d bd)
                else if c.type = lc "bus" then
                  if ¬ busList = [] ∧ ¬ c.name ∈ busList then a
                  else
                    let bd := getBusInfo c pinList
                    if bd.isEmpty then a
                    else setNested3 a (lc "cell") g.name (lc "bus") c.name (PyVal.d bd)
                else a) acc
        else acc) []

/-- Length of a match, at the head of the string, of the serializer's
substitution pattern: a quote, whitespace, a comma, whitespace, a quote.
Both whitespace runs are forced to be maximal, which agrees with the
greedy regex because a shorter run would put a whitespace character where
the pattern demands a comma or a quote. -/
def qcqMatchLen (s : List Char) : Option Nat :=
  match s with
  | '"' :: rest =>
    let w1 := runLen wsC rest
    match rest.drop w1 with
    | ',' :: rest2 =>
      let w2 := runLen wsC rest2
      match rest2.drop w2 with
      | '"' :: _ => some (w1 + w2 + 3)
      | _ => none
    | _ => none
  | _ => none

/-- Leftmost non-overlapping substitution of the quote-comma-quote
pattern by a quote-hash-quote marker (restoreLib's values handling). -/
def subQCQ (s : List Char) : List Char :=
  match s with
  | [] => []
  | c :: cs =>
    match qcqMatchLen (c :: cs) with
    | some n => lc "\"#\"" ++ subQCQ (cs.drop (n - 1))
    | none => c :: subQCQ cs
termination_by s.length
decreasing_by
all_goals simp [List.length_drop]
omega

/-- The serializer's parenthesised-value test re.match of a paren, one or
more characters and a paren (a prefix match). -/
def parenPat : List TTok :=
  [(Tok.lit '(', none), (Tok.plus anyC true, none), (Tok.lit ')', none),
   (Tok.star anyC true, none)]

/-- Item lines of restoreLib's values block (the non-final items carry a
comma; every item line ends in a literal backslash-n with no newline). -/
def valuesItems (d : Nat) : List (List Char) → List Char
  | [] => []
  | [x] => List.replicate (4*d) ' ' ++ lc "    " ++ stripWs x ++ lc " \\n"
  | x :: xs => List.replicate (4*d) ' ' ++ lc "    " ++ stripWs x ++ lc ", \\n" ++ valuesItems d xs

/-- restoreLib's special multi-line formatting of a values attribute. -/
def valuesBlock (d : Nat) (key s : List Char) : List Char :=
  let valueString := s.filter (fun c => ¬ (c = '(' ∨ c = ')'))
  let parts := splitCh '#' (subQCQ valueString)
  List.replicate (2*d) ' ' ++ lc "  " ++ key ++ lc " ( \\n" ++
  valuesItems d parts ++
  List.replicate (2*d) ' ' ++ lc "  );\n"

/-- Trailing items of restoreLib's table attribute formatting; only the
final item closes the quoted string and the statement. -/
def tableItems : List (List Char) → List Char
  | [] => []
  | [x] => x ++ lc "\";\n"
  | x :: xs => x ++ lc ", \\n" ++ tableItems xs

/-- restoreLib's special formatting of a table attribute. -/
def tableBlock (d : Nat) (key s : List Char) : List Char :=
  let vlist := (splitCh ',' (s.filter (fun c => ¬ c = '"'))).map stripWs
  match vlist with
  | [] => []
  | v0 :: rest =>
    List.replicate (2*d) ' ' ++ lc "  " ++ key ++ lc " : \"" ++ v0 ++ lc ", \\n" ++
    tableItems rest

/-- restoreLib's output for one attribute entry. -/
def attrLines (d : Nat) (k : List Char) (v : AttrVal) : List Char :=
  if k = lc "values" then
    match v with
    | AttrVal.str s => valuesBlock d k s
    | AttrVal.lst _ => []
  else if k = lc "table" then
    match v with
    | AttrVal.str s => tableBlock d k s
    | AttrVal.lst _ => []
  else
    match v with
    | AttrVal.lst items =>
      (items.map (fun it =>
        if (mt parenPat it).isSome then
          if k = lc "define" then
            List.replicate (2*d) ' ' ++ lc "  " ++ k ++ it ++ lc ";\n"
          else
            List.replicate (2*d) ' ' ++ lc "  " ++ k ++ lc " " ++ it ++ lc ";\n"
        else
          List.replicate (2*d) ' ' ++ lc "  " ++ k ++ lc " : " ++ it ++ lc ";\n")).flatten
    | AttrVal.str s =>
      if (mt parenPat s).isSome then
        List.replicate (2*d) ' ' ++ lc "  " ++ k ++ lc " " ++ s ++ lc ";\n"
      else
        List.replicate (2*d) ' ' ++ lc "  " ++ k ++ lc " : " ++ s ++ lc ";\n"

mutual

/-- The recursive writer _restoreLib: opening line, attribute entries in
insertion order, children (the group entry organizeData appended after
every attribute), closing brace. -/
def restoreGroup : GTree → List Char
  | GTree.node _ d ty nm attrs ch =>
    List.replicate d ' ' ++ ty ++ lc " (" ++ nm ++ lc ") \x7b\n" ++
    (attrs.map (fun kv => attrLines d kv.1 kv.2)).flatten ++
    restoreChildren ch ++
    List.replicate d ' ' ++ lc "\x7d\n"

/-- Serialization of a child list in order (the recursion of _restoreLib
over the group entry). -/
def restoreChildren : List GTree → List Char
  | [] => []
  | t :: ts => restoreGroup t ++ restoreChildren ts

end

/-- restoreLib of the source: serialize the whole tree to file content. -/
def restoreLib (t : GTree) : List Char := restoreGroup t

/-- Split written file content back into the lines a re-parse would see
(text after the last newline is a final line; a trailing newline does not
create an extra empty line). -/
def fileLines (s : List Char) : List (List Char) :=
  let parts := splitCh '\n' s
  if parts.getLast? = some [] then parts.dropLast else parts

/-- A small library whose cell A holds one pin with a timing group and
whose cell B is the last cell of the file. -/
def exC3Lines : List (List Char) :=
  [lc "library (L) \x7b", lc "cell (A) \x7b", lc "pin (P) \x7b", lc "timing () \x7b",
   lc "related_pin : \"Z\";", lc "\x7d", lc "\x7d", lc "\x7d", lc "cell (B) \x7b",
   lc "\x7d", lc "\x7d"]

/-- A minimal library with one cell, one scalar attribute and one pin. -/
def exC9Lines : List (List Char) :=
  [lc "library (L) \x7b", lc "cell (INV) \x7b", lc "area : 1;", lc "pin (A) \x7b",
   lc "\x7d", lc "\x7d", lc "\x7d"]

/-- A file whose comment-start marker sits in the middle of a line, with a
cell declaration between it and the matching end marker. -/
def exC8Lines : List (List Char) :=
  [lc "library (L) \x7b", lc "x /*", lc "cell (FAKE) \x7b", lc "*/",
   lc "\x7d", lc "\x7d"]

/-- C1 counterexample: in one group, the simple attribute foo appears as
1 and later as 2; the parser stores the plain string 2 for foo (plain
overwriting assignment), not the ordered list of both occurrences, so the
claimed duplicate-key accumulation does not hold for simple attributes. -/
theorem c1_counterexample :
    (runLines initState
        [lc "library (L) \x7b", lc "foo : 1;", lc "foo : 2;", lc "\x7d"]).map
        (fun st => st.groupList.map (fun g => dGet g.attrs (lc "foo")))
      = some [some (AttrVal.str (lc "2"))] ∧
    ¬ AttrVal.str (lc "2") = AttrVal.lst [lc "1", lc "2"] := by
  exact ⟨by decide, by decide⟩

/-- C2 counterexample: after the only group closes, a simple attribute
line is processed with an empty open-group stack; the parse does not
terminate fatally but completes, and the value is attached to the most
recently created group record (index -1 of the group list). -/
theorem c2_counterexample :
    (runLines initState [lc "library (L) \x7b", lc "\x7d", lc "foo : 1;"]).map
        (fun st => st.groupList.map (fun g => (g.type, dGet g.attrs (lc "foo"))))
      = some [(lc "library", some (AttrVal.str (lc "1")))] := by
  decide

/-- C4 counterexample: a group-close line with no matching open group
makes the parse abort with an unhandled IndexError (pop from an empty
stack), modelled as none; parsing does not continue. -/
theorem c4_counterexample :
    runLines initState [lc "library (L) \x7b", lc "\x7d", lc "\x7d"] = none := by
  decide

/-- C8 counterexample: with the comment opened by a marker that does not
start its line, the cell declaration inside the comment is recorded by
the pre-scan and returned by getCellList after a full parse. -/
theorem c8_counterexample :
    (constructTree exC8Lines).map getCellList = some [lc "FAKE"] ∧
    (preScan exC8Lines).map (fun x => x.1) = [lc "FAKE"] :=
  ⟨rfl, rfl⟩

/-- C3: evaluation at the failing input.  Requesting cells A and B, where
B is the last cell of the file, makes genCellLibFile emit the original
closing brace of the library and then a second, synthetic one; parsing
the reduced file pops an empty stack and construction aborts with an
unhandled IndexError (none), while parsing the full original file and
projecting getLibPinInfo on the same two cells succeeds. -/
theorem c3_bug_eval :
    constructTreeWithCells exC3Lines [lc "A", lc "B"] = none ∧
    (constructTree exC3Lines).map
        (fun t => getLibPinInfo t [lc "A", lc "B"] [] [] [])
      = some [(lc "cell", PyVal.d
          [(lc "A", PyVal.d
            [(lc "pin", PyVal.d
              [(lc "P", PyVal.d
                [(lc "timing", PyVal.l
                  [PyVal.d [(lc "related_pin", PyVal.s (lc "\"Z\""))]])])])])])] :=
  ⟨rfl, rfl⟩

/-- C9: round trip.  Parsing the minimal library, serializing with
restoreLib and re-parsing the serialized text reproduces the entity list
INV and the area attribute value 1 (both on the original parse and on the
re-parse). -/
theorem c9_roundtrip :
    (constructTree exC9Lines).map getCellList = some [lc "INV"] ∧
    (constructTree exC9Lines).map (fun t => getCellArea t [lc "INV"])
      = some [(lc "INV", PyVal.s (lc "1"))] ∧
    ((constructTree exC9Lines).bind
        (fun t => constructTree (fileLines (restoreLib t)))).map getCellList
      = some [lc "INV"] ∧
    ((constructTree exC9Lines).bind
        (fun t => constructTree (fileLines (restoreLib t)))).map
        (fun t => getCellArea t [lc "INV"])
      = some [(lc "INV", PyVal.s (lc "1"))] :=
  ⟨rfl, rfl, rfl, rfl⟩

/-- C10: when the parsing loop produces no group record at all (for
example on an empty file, or one holding only comments and blank lines),
construction does not yield an empty model or a clean diagnostic:
organizeData reads the head of an empty list, an unhandled IndexError
modelled as none. -/
theorem c10_no_groups_crashes (lines : List (List Char)) (st : PState)
    (h : runLines initState lines = some st) (he : st.groupList = []) :
    constructTree lines = none := by
  unfold constructTree
  rw [h]
  show organizeData st.groupList = none
  rw [he]
  rfl

/-- Witness for C10: a file holding one comment and two blank lines. -/
theorem c10_no_groups_crashes_witness :
    constructTree [lc "/* header */", lc "", lc "   "] = none :=
  c10_no_groups_crashes _ initState (by decide) rfl

/-- C5: whenever some requested cell is absent from the pre-scan's
recorded cells, genCellLibFile reports exactly the missing names, in
request order, and terminates with a non-zero status before any output is
written (the status GenRes.missing excludes GenRes.ok). -/
theorem c5_missing_fails_together (lines cellList : List (List Char))
    (h : ∃ c ∈ cellList, ¬ c ∈ (preScan lines).map (fun x => x.1)) :
    genCellLibFile lines cellList
      = GenRes.missing
          (cellList.filter (fun c => ¬ c ∈ (preScan lines).map (fun x => x.1))) := by
  have hne : cellList.filter
      (fun c => ¬ c ∈ (preScan lines).map (fun x => x.1)) ≠ [] := by
    obtain ⟨c, hc, hnc⟩ := h
    intro hemp
    have hmem : c ∈ cellList.filter
        (fun c => ¬ c ∈ (preScan lines).map (fun x => x.1)) := by
      rw [List.mem_filter]
      exact ⟨hc, by simpa using hnc⟩
    rw [hemp] at hmem
    simp at hmem
  unfold genCellLibFile
  rw [if_pos hne]

/-- Witness for C5: requesting A, X, Y against a file declaring only A
and B fails reporting X and Y together. -/
theorem c5_missing_witness :
    genCellLibFile exC3Lines [lc "A", lc "X", lc "Y"]
      = GenRes.missing [lc "X", lc "Y"] :=
  (c5_missing_fails_together exC3Lines [lc "A", lc "X", lc "Y"]
    ⟨lc "X", by decide, by decide⟩).trans (by decide)

/-- What one matcher token permits for a single consumed character. -/
def tokCharOk : Tok → Char → Prop
  | Tok.lit c, x => x = c
  | Tok.star p _, x => p x = true
  | Tok.plus p _, x => p x = true

/-- A successful firstSome comes from some candidate. -/
theorem firstSome_eq_some {α : Type} (f : Nat → Option α) (ks : List Nat) (r : α)
    (h : firstSome f ks = some r) : ∃ k ∈ ks, f k = some r := by
  induction ks with
  | nil => simp [firstSome] at h
  | cons k ks ih =>
    cases hf : f k with
    | some r' =>
      simp only [firstSome, hf] at h
      exact ⟨k, List.mem_cons_self k ks, by rw [hf, h]⟩
    | none =>
      simp only [firstSome, hf] at h
      obtain ⟨k', hk', hfk'⟩ := ih h
      exact ⟨k', List.mem_cons_of_mem _ hk', hfk'⟩

/-- Every character in a prefix within the run length satisfies the
class. -/
theorem mem_take_runLen (p : Char → Bool) (s : List Char) (k : Nat)
    (hk : k ≤ runLen p s) (x : Char) (hx : x ∈ s.take k) : p x = true := by
  induction s generalizing k with
  | nil => simp at hx
  | cons c cs ih =>
    cases k with
    | zero => simp at hx
    | succ k' =>
      simp only [runLen] at hk
      by_cases hpc : p c = true
      · rw [if_pos hpc] at hk
        rw [List.take_succ_cons] at hx
        rcases List.mem_cons.mp hx with h | h
        · rw [h]; exact hpc
        · exact ih k' (Nat.le_of_succ_le_succ hk) h
      · rw [if_neg hpc] at hk
        omega

/-- Soundness of the matcher: every character of a matched string is
permitted by one of the pattern's tokens. -/
theorem mt_chars (toks : List TTok) : ∀ (s : List Char) (r : List (Option Nat × List Char)),
    mt toks s = some r → ∀ x ∈ s, ∃ t ∈ toks, tokCharOk t.1 x := by
  induction toks with
  | nil =>
    intro s r h x hx
    by_cases hs : s = []
    · rw [hs] at hx; simp at hx
    · simp only [mt, if_neg hs] at h
      exact absurd h (by simp)
  | cons tg ts ih =>
    obtain ⟨t, g⟩ := tg
    cases t with
    | lit c =>
      intro s r h x hx
      cases s with
      | nil => simp [mt] at h
      | cons y s' =>
        simp only [mt] at h
        by_cases hyc : y = c
        · rw [if_pos hyc] at h
          obtain ⟨r', hr', _⟩ := Option.map_eq_some'.mp h
          rcases List.mem_cons.mp hx with hxy | hxs
          · exact ⟨(Tok.lit c, g), List.mem_cons_self _ _, by
              show x = c
              rw [hxy, hyc]⟩
          · obtain ⟨t', ht', hok⟩ := ih s' r' hr' x hxs
            exact ⟨t', List.mem_cons_of_mem _ ht', hok⟩
        · rw [if_neg hyc] at h
          exact absurd h (by simp)
    | star p gr =>
      intro s r h x hx
      simp only [mt] at h
      obtain ⟨k, hk, hfk⟩ := firstSome_eq_some _ _ _ h
      obtain ⟨r', hr', _⟩ := Option.map_eq_some'.mp hfk
      have hkle : k ≤ runLen p s := by
        by_cases hgr : gr
        · rw [if_pos hgr] at hk
          rw [List.mem_reverse, List.mem_range] at hk
          omega
        · rw [if_neg hgr] at hk
          rw [List.mem_range] at hk
          omega
      rw [← List.take_append_drop k s] at hx
      rcases List.mem_append.mp hx with hxt | hxd
      · exact ⟨(Tok.star p gr, g), List.mem_cons_self _ _,
          mem_take_runLen p s k hkle x hxt⟩
      · obtain ⟨t', ht', hok⟩ := ih (s.drop k) r' hr' x hxd
        exact ⟨t', List.mem_cons_of_mem _ ht', hok⟩
    | plus p gr =>
      intro s r h x hx
      simp only [mt] at h
      obtain ⟨k, hk, hfk⟩ := firstSome_eq_some _ _ _ h
      obtain ⟨r', hr', _⟩ := Option.map_eq_some'.mp hfk
      have hkle : k ≤ runLen p s := by
        by_cases hgr : gr
        · rw [if_pos hgr] at hk
          rw [List.mem_reverse] at hk
          obtain ⟨a, ha, hak⟩ := List.mem_map.mp hk
          rw [List.mem_range] at ha
          omega
        · rw [if_neg hgr] at hk
          obtain ⟨a, ha, hak⟩ := List.mem_map.mp hk
          rw [List.mem_range] at ha
          omega
      rw [← List.take_append_drop k s] at hx
      rcases List.mem_append.mp hx with hxt | hxd
      · exact ⟨(Tok.plus p gr, g), List.mem_cons_self _ _,
          mem_take_runLen p s k hkle x hxt⟩
      · obtain ⟨t', ht', hok⟩ := ih (s.drop k) r' hr' x hxd
        exact ⟨t', List.mem_cons_of_mem _ ht', hok⟩

/-- Soundness of the matcher: a literal token of a matched pattern
requires its character to occur in the string. -/
theorem mt_lit_mem (toks : List TTok) : ∀ (s : List Char) (r : List (Option Nat × List Char)),
    mt toks s = some r → ∀ (c : Char) (g : Option Nat),
    (Tok.lit c, g) ∈ toks → c ∈ s := by
  induction toks with
  | nil =>
    intro s r _ c g hmem
    simp at hmem
  | cons tg ts ih =>
    obtain ⟨t, g'⟩ := tg
    cases t with
    | lit c' =>
      intro s r h c g hmem
      cases s with
      | nil => simp [mt] at h
      | cons y s' =>
        simp only [mt] at h
        by_cases hyc : y = c'
        · rw [if_pos hyc] at h
          obtain ⟨r', hr', _⟩ := Option.map_eq_some'.mp h
          rcases List.mem_cons.mp hmem with hh | hh
          · have : c = c' := by
              have := congrArg Prod.fst hh
              simpa using this
            rw [List.mem_cons]
            left
            rw [this, hyc]
          · exact List.mem_cons_of_mem _ (ih s' r' hr' c g hh)
        · rw [if_neg hyc] at h
          exact absurd h (by simp)
    | star p gr =>
      intro s r h c g hmem
      simp only [mt] at h
      obtain ⟨k, _, hfk⟩ := firstSome_eq_some _ _ _ h
      obtain ⟨r', hr', _⟩ := Option.map_eq_some'.mp hfk
      rcases List.mem_cons.mp hmem with hh | hh
      · exact absurd hh (by simp)
      · exact List.mem_of_mem_drop (ih (s.drop k) r' hr' c g hh)
    | plus p gr =>
      intro s r h c g hmem
      simp only [mt] at h
      obtain ⟨k, _, hfk⟩ := firstSome_eq_some _ _ _ h
      obtain ⟨r', hr', _⟩ := Option.map_eq_some'.mp hfk
      rcases List.mem_cons.mp hmem with hh | hh
      · exact absurd hh (by simp)
      · exact List.mem_of_mem_drop (ih (s.drop k) r' hr' c g hh)

/-- A line matching the group-close pattern consists of whitespace and
closing braces only. -/
theorem groupDone_chars (line : List Char) (r : List (Option Nat × List Char))
    (h : mt groupDonePat line = some r) (x : Char) (hx : x ∈ line) :
    wsC x = true ∨ x = '\x7d' := by
  obtain ⟨t, ht, hok⟩ := mt_chars groupDonePat line r h x hx
  simp only [groupDonePat, List.mem_cons, List.mem_singleton] at ht
  rcases ht with h1 | h1 | h1 | h1
  · left; rw [h1] at hok; exact hok
  · right; rw [h1] at hok; exact hok
  · left; rw [h1] at hok; exact hok
  · simp at h1

/-- A group-close line matches none of the patterns the elif chain tries
before the group-close pattern. -/
theorem groupDone_excl (line : List Char) (r : List (Option Nat × List Char))
    (h : mt groupDonePat line = some r) :
    mt multilinesPat line = none ∧ mt complexAttrPat line = none ∧
    mt simpleAttrPat line = none ∧ mt groupPat line = none := by
  refine ⟨?_, ?_, ?_, ?_⟩
  · cases hc : mt multilinesPat line with
    | none => rfl
    | some r2 =>
      have hmem : '\\' ∈ line :=
        mt_lit_mem multilinesPat line r2 hc '\\' none (by simp [multilinesPat])
      rcases groupDone_chars line r h '\\' hmem with h1 | h1 <;> simp [wsC] at h1
  · cases hc : mt complexAttrPat line with
    | none => rfl
    | some r2 =>
      have hmem : '(' ∈ line :=
        mt_lit_mem complexAttrPat line r2 hc '(' (some 3) (by simp [complexAttrPat])
      rcases groupDone_chars line r h '(' hmem with h1 | h1 <;> simp [wsC] at h1
  · cases hc : mt simpleAttrPat line with
    | none => rfl
    | some r2 =>
      have hmem : ':' ∈ line :=
        mt_lit_mem simpleAttrPat line r2 hc ':' none (by simp [simpleAttrPat])
      rcases groupDone_chars line r h ':' hmem with h1 | h1 <;> simp [wsC] at h1
  · cases hc : mt groupPat line with
    | none => rfl
    | some r2 =>
      have hmem : '(' ∈ line :=
        mt_lit_mem groupPat line r2 hc '(' none (by simp [groupPat])
      rcases groupDone_chars line r h '(' hmem with h1 | h1 <;> simp [wsC] at h1

/-- C4 (amended): a group-close line processed with an empty open-group
stack aborts the parse with an unhandled IndexError (pop from an empty
list), modelled as none, rather than being a recoverable logged error;
and a group still open at end of file is not detected at all: the parse
of a lone group-open line completes silently with the group retained and
still open. -/
theorem c4_amended :
    (∀ (st : PState) (line : List Char) (r : List (Option Nat × List Char)),
      st.commentMark = false → st.multi = [] → st.opened = [] →
      mt groupDonePat line = some r → procLine st line = none) ∧
    runLines initState [lc "library (L) \x7b"]
      = some { multi := [], commentMark := false,
               groupList := [{ fatherGroupNum := -1, depth := 0,
                               type := lc "library", name := lc "L", attrs := [] }],
               opened := [0], lastOpened := 0 } := by
  constructor
  · intro st line r hc hm hop hg
    obtain ⟨hml, hcx, hsx, hgp⟩ := groupDone_excl line r hg
    rw [procLine, hc]
    simp only [Bool.false_eq_true, if_false, hml]
    rw [if_pos hm]
    rw [classify, hcx, hsx, hgp, hg]
    simp only [Option.isSome_some, if_true, hop]
  · decide

/-- Witness for C4: a bare close line from the initial state crashes. -/
theorem c4_amended_witness : procLine initState (lc "\x7d") = none :=
  c4_amended.1 initState (lc "\x7d") _ rfl rfl rfl rfl

/-- Reading back the key just assigned. -/
theorem dGet_dSet_self {V : Type} (d : List (List Char × V)) (k : List Char) (v : V) :
    dGet (dSet d k v) k = some v := by
  induction d with
  | nil => simp [dSet, dGet]
  | cons kv d ih =>
    by_cases hk : kv.1 = k
    · simp [dSet, hk, dGet]
    · simp only [dSet, hk, if_false, dGet, ih]

/-- Assignment leaves other keys unchanged. -/
theorem dGet_dSet_other {V : Type} (d : List (List Char × V)) (k k' : List Char) (v : V)
    (hne : ¬ k' = k) : dGet (dSet d k v) k' = dGet d k' := by
  have hne' : ¬ k = k' := fun h => hne h.symm
  induction d with
  | nil =>
    show (if k = k' then some v else dGet [] k') = dGet [] k'
    rw [if_neg hne']
  | cons kv d ih =>
    obtain ⟨k0, v0⟩ := kv
    by_cases hk : k0 = k
    · show dGet (if k0 = k then (k, v) :: d else (k0, v0) :: dSet d k v) k' = _
      rw [if_pos hk]
      show (if k = k' then some v else dGet d k') = if k0 = k' then some v0 else dGet d k'
      rw [if_neg hne', if_neg (by rw [hk]; exact hne')]
    · show dGet (if k0 = k then (k, v) :: d else (k0, v0) :: dSet d k v) k' = _
      rw [if_neg hk]
      show (if k0 = k' then some v0 else dGet (dSet d k v) k')
        = if k0 = k' then some v0 else dGet d k'
      rw [ih]

/-- The value complexInsert leaves under its key: first occurrence stores
the scalar, a repeated key accumulates at the end of the list. -/
theorem dGet_complexInsert_self (d : List (List Char × AttrVal)) (k v : List Char) :
    dGet (complexInsert d k v) k
      = some (match dGet d k with
              | some (AttrVal.lst l) => AttrVal.lst (l ++ [v])
              | some (AttrVal.str v0) => AttrVal.lst [v0, v]
              | none => AttrVal.str v) := by
  unfold complexInsert
  cases hd : dGet d k with
  | none => rw [dGet_dSet_self]
  | some a => cases a with
    | str v0 => rw [dGet_dSet_self]
    | lst l => rw [dGet_dSet_self]

/-- complexInsert leaves other keys unchanged. -/
theorem dGet_complexInsert_other (d : List (List Char × AttrVal)) (k k' v : List Char)
    (hne : ¬ k' = k) : dGet (complexInsert d k v) k' = dGet d k' := by
  unfold complexInsert
  cases hd : dGet d k with
  | none => rw [dGet_dSet_other _ _ _ _ hne]
  | some a => cases a with
    | str v0 => rw [dGet_dSet_other _ _ _ _ hne]
    | lst l => rw [dGet_dSet_other _ _ _ _ hne]

/-- A successful Python read makes the corresponding in-place update
succeed, updating exactly that slot and keeping the length. -/
theorem pyModify_of_pyGet {α : Type} (l : List α) (i : Int) (f : α → α) (a : α)
    (h : pyGet l i = some a) :
    ∃ l', pyModify l i f = some l' ∧ pyGet l' i = some (f a) ∧ l'.length = l.length := by
  unfold pyGet at h
  unfold pyModify
  by_cases hi : i < 0
  · rw [if_pos hi] at h ⊢
    by_cases hj : (l.length : Int) + i < 0
    · rw [if_pos hj] at h
      exact absurd h (by simp)
    · rw [if_neg hj] at h ⊢
      rw [h]
      refine ⟨l.set ((l.length : Int) + i).toNat (f a), rfl, ?_, List.length_set l _ _⟩
      have hlt : ((l.length : Int) + i).toNat < l.length := by
        rcases List.get?_eq_some.mp h with ⟨hlt, _⟩
        exact hlt
      unfold pyGet
      rw [if_pos hi, List.length_set, if_neg hj]
      rw [List.get?_eq_getElem?]
      exact List.getElem?_set_eq_of_lt (f a) hlt
  · rw [if_neg hi] at h ⊢
    rw [h]
    refine ⟨l.set i.toNat (f a), rfl, ?_, List.length_set l _ _⟩
    have hlt : i.toNat < l.length := by
      rcases List.get?_eq_some.mp h with ⟨hlt, _⟩
      exact hlt
    unfold pyGet
    rw [if_neg hi]
    rw [List.get?_eq_getElem?]
    exact List.getElem?_set_eq_of_lt (f a) hlt

/-- Index -1 reads the final element of a non-empty Python list. -/
theorem pyGet_neg_one_last {α : Type} (l0 : List α) (a : α) :
    pyGet (l0 ++ [a]) (-1) = some a := by
  unfold pyGet
  rw [if_pos (by omega)]
  rw [if_neg (by simp)]
  have h1 : (((l0 ++ [a]).length : Int) + -1).toNat = l0.length := by
    simp
  rw [h1]
  rw [List.get?_eq_getElem?]
  rw [List.getElem?_append_right (Nat.le_refl _)]
  simp

/-- Reading any index of an empty list through Python indexing fails. -/
theorem pyModify_nil_neg {α : Type} (f : α → α) :
    pyModify ([] : List α) (-1) f = none := by
  rfl

/-- Outside comments and with no pending continuation, a line that does
not end in a continuation marker goes straight to the elif chain. -/
theorem procLine_classify (st : PState) (line : List Char)
    (hc : st.commentMark = false) (hm : st.multi = [])
    (hml : mt multilinesPat line = none) :
    procLine st line = classify st line := by
  rw [procLine, hc]
  simp only [Bool.false_eq_true, if_false, hml]
  rw [if_pos hm]

/-- The elif chain on a line matching the complex-attribute pattern. -/
theorem classify_complex (st : PState) (line : List Char)
    (r : List (Option Nat × List Char)) (hr : mt complexAttrPat line = some r) :
    classify st line = applyComplex st (capGet r 2) (capGet r 3) := by
  rw [classify, hr]

/-- The elif chain on a line matching the simple-attribute pattern but
not the complex one. -/
theorem classify_simple (st : PState) (line : List Char)
    (r : List (Option Nat × List Char)) (hcx : mt complexAttrPat line = none)
    (hr : mt simpleAttrPat line = some r) :
    classify st line = applySimple st (capGet r 2) (capGet r 3) := by
  rw [classify, hcx, hr]

/-- C1 (amended): for the group the cached last-opened index designates,
a complex-attribute line accumulates under its key (scalar on first
occurrence, promotion to a two-element list on the second, append on
later ones, in source order) while a simple-attribute line overwrites the
stored value with the latest occurrence; other keys are untouched. -/
theorem c1_amended (st : PState) (line k v : List Char) (g : GroupRec)
    (hc : st.commentMark = false) (hm : st.multi = [])
    (hml : mt multilinesPat line = none)
    (hg : pyGet st.groupList st.lastOpened = some g) :
    ((mt complexAttrPat line).map (fun r => (capGet r 2, capGet r 3)) = some (k, v) →
      ∃ st', procLine st line = some st' ∧ ∃ g',
        pyGet st'.groupList st.lastOpened = some g' ∧
        dGet g'.attrs k = some (match dGet g.attrs k with
          | some (AttrVal.lst l) => AttrVal.lst (l ++ [v])
          | some (AttrVal.str v0) => AttrVal.lst [v0, v]
          | none => AttrVal.str v) ∧
        ∀ k', ¬ k' = k → dGet g'.attrs k' = dGet g.attrs k') ∧
    (mt complexAttrPat line = none →
      (mt simpleAttrPat line).map (fun r => (capGet r 2, capGet r 3)) = some (k, v) →
      ∃ st', procLine st line = some st' ∧ ∃ g',
        pyGet st'.groupList st.lastOpened = some g' ∧
        dGet g'.attrs k = some (AttrVal.str v) ∧
        ∀ k', ¬ k' = k → dGet g'.attrs k' = dGet g.attrs k') := by
  constructor
  · intro hcx
    obtain ⟨r, hr, hkv⟩ := Option.map_eq_some'.mp hcx
    obtain ⟨hk2, hv3⟩ := Prod.mk.injEq .. |>.mp hkv
    rw [procLine_classify st line hc hm hml, classify_complex st line r hr, hk2, hv3]
    obtain ⟨gl', hmod, hget, _⟩ :=
      pyModify_of_pyGet st.groupList st.lastOpened
        (fun g => { g with attrs := complexInsert g.attrs k v }) g hg
    rw [applyComplex, hmod]
    refine ⟨_, rfl, { g with attrs := complexInsert g.attrs k v }, hget, ?_, ?_⟩
    · exact dGet_complexInsert_self g.attrs k v
    · intro k' hk'
      exact dGet_complexInsert_other g.attrs k k' v hk'
  · intro hcx hsx
    obtain ⟨r, hr, hkv⟩ := Option.map_eq_some'.mp hsx
    obtain ⟨hk2, hv3⟩ := Prod.mk.injEq .. |>.mp hkv
    rw [procLine_classify st line hc hm hml, classify_simple st line r hcx hr, hk2, hv3]
    obtain ⟨gl', hmod, hget, _⟩ :=
      pyModify_of_pyGet st.groupList st.lastOpened
        (fun g => { g with attrs := dSet g.attrs k (AttrVal.str v) }) g hg
    rw [applySimple, hmod]
    refine ⟨_, rfl, { g with attrs := dSet g.attrs k (AttrVal.str v) }, hget, ?_, ?_⟩
    · exact dGet_dSet_self g.attrs k (AttrVal.str v)
    · intro k' hk'
      exact dGet_dSet_other g.attrs k k' (AttrVal.str v) hk'

/-- A one-group parser state whose group already stores foo as 1. -/
def exAttrState : PState :=
  { multi := [], commentMark := false,
    groupList := [{ fatherGroupNum := -1, depth := 0, type := lc "library",
                    name := lc "L", attrs := [(lc "foo", AttrVal.str (lc "1"))] }],
    opened := [0], lastOpened := 0 }

/-- Witness for C1: a second complex occurrence of foo promotes the
stored scalar 1 to the two-element list. -/
theorem c1_amended_witness :
    ∃ st', procLine exAttrState (lc "foo (2);") = some st' ∧ ∃ g',
      pyGet st'.groupList (0 : Int) = some g' ∧
      dGet g'.attrs (lc "foo") = some (AttrVal.lst [lc "1", lc "(2)"]) ∧
      ∀ k', ¬ k' = lc "foo" →
        dGet g'.attrs k' = dGet [(lc "foo", AttrVal.str (lc "1"))] k' :=
  (c1_amended exAttrState (lc "foo (2);") (lc "foo") (lc "(2)")
      { fatherGroupNum := -1, depth := 0, type := lc "library", name := lc "L",
        attrs := [(lc "foo", AttrVal.str (lc "1"))] }
      rfl rfl rfl rfl).1 rfl

/-- C2 (amended): an attribute line processed while the open-group stack
is empty (cached last-opened index -1) is not a clean fatal error: with
no group record yet, the parse aborts with an unhandled IndexError
(none); with at least one record, the attribute is attached to the most
recently created group record and parsing continues. -/
theorem c2_amended (st : PState) (line k v : List Char)
    (hc : st.commentMark = false) (hm : st.multi = [])
    (hml : mt multilinesPat line = none)
    (hop : st.opened = []) (hlast : st.lastOpened = -1) :
    ((mt complexAttrPat line).map (fun r => (capGet r 2, capGet r 3)) = some (k, v) →
      (st.groupList = [] → procLine st line = none) ∧
      (∀ gl0 g0, st.groupList = gl0 ++ [g0] →
        ∃ st', procLine st line = some st' ∧
          pyGet st'.groupList (-1)
            = some { g0 with attrs := complexInsert g0.attrs k v })) ∧
    (mt complexAttrPat line = none →
      (mt simpleAttrPat line).map (fun r => (capGet r 2, capGet r 3)) = some (k, v) →
      (st.groupList = [] → procLine st line = none) ∧
      (∀ gl0 g0, st.groupList = gl0 ++ [g0] →
        ∃ st', procLine st line = some st' ∧
          pyGet st'.groupList (-1)
            = some { g0 with attrs := dSet g0.attrs k (AttrVal.str v) })) := by
  constructor
  · intro hcx
    obtain ⟨r, hr, hkv⟩ := Option.map_eq_some'.mp hcx
    obtain ⟨hk2, hv3⟩ := Prod.mk.injEq .. |>.mp hkv
    constructor
    · intro hgl
      rw [procLine_classify st line hc hm hml, classify_complex st line r hr, hk2, hv3]
      rw [applyComplex, hlast, hgl, pyModify_nil_neg]
      rfl
    · intro gl0 g0 hgl
      rw [procLine_classify st line hc hm hml, classify_complex st line r hr, hk2, hv3]
      have hg : pyGet st.groupList st.lastOpened = some g0 := by
        rw [hlast, hgl]
        exact pyGet_neg_one_last gl0 g0
      obtain ⟨gl', hmod, hget, _⟩ :=
        pyModify_of_pyGet st.groupList st.lastOpened
          (fun g => { g with attrs := complexInsert g.attrs k v }) g0 hg
      rw [applyComplex, hmod]
      refine ⟨_, rfl, ?_⟩
      rw [← hlast]
      exact hget
  · intro hcx hsx
    obtain ⟨r, hr, hkv⟩ := Option.map_eq_some'.mp hsx
    obtain ⟨hk2, hv3⟩ := Prod.mk.injEq .. |>.mp hkv
    constructor
    · intro hgl
      rw [procLine_classify st line hc hm hml, classify_simple st line r hcx hr, hk2, hv3]
      rw [applySimple, hlast, hgl, pyModify_nil_neg]
      rfl
    · intro gl0 g0 hgl
      rw [procLine_classify st line hc hm hml, classify_simple st line r hcx hr, hk2, hv3]
      have hg : pyGet st.groupList st.lastOpened = some g0 := by
        rw [hlast, hgl]
        exact pyGet_neg_one_last gl0 g0
      obtain ⟨gl', hmod, hget, _⟩ :=
        pyModify_of_pyGet st.groupList st.lastOpened
          (fun g => { g with attrs := dSet g.attrs k (AttrVal.str v) }) g0 hg
      rw [applySimple, hmod]
      refine ⟨_, rfl, ?_⟩
      rw [← hlast]
      exact hget

/-- A parser state in which the only group has been closed again. -/
def exClosedState : PState :=
  { multi := [], commentMark := false,
    groupList := [{ fatherGroupNum := -1, depth := 0, type := lc "library",
                    name := lc "L", attrs := [] }],
    opened := [], lastOpened := -1 }

/-- Witness for C2: from the initial state (no groups) an attribute line
crashes; after the only group closed, the same line attaches the value to
that group. -/
theorem c2_amended_witness :
    procLine initState (lc "foo : 1;") = none ∧
    ∃ st', procLine exClosedState (lc "foo : 1;") = some st' ∧
      pyGet st'.groupList (-1)
        = some { fatherGroupNum := -1, depth := 0, type := lc "library",
                 name := lc "L", attrs := [(lc "foo", AttrVal.str (lc "1"))] } :=
  ⟨((c2_amended initState (lc "foo : 1;") (lc "foo") (lc "1")
      rfl rfl rfl rfl rfl).2 rfl rfl).1 rfl,
   ((c2_amended exClosedState (lc "foo : 1;") (lc "foo") (lc "1")
      rfl rfl rfl rfl rfl).2 rfl rfl).2 []
     { fatherGroupNum := -1, depth := 0, type := lc "library",
       name := lc "L", attrs := [] } rfl⟩

/-- The parsing loop splits over concatenation of line lists. -/
theorem runLines_append (a b : List (List Char)) : ∀ (st : PState),
    runLines st (a ++ b) = (runLines st a).bind (fun st' => runLines st' b) := by
  induction a with
  | nil => intro st; rfl
  | cons l ls ih =>
    intro st
    show runLines st (l :: (ls ++ b)) = _
    cases hp : procLine st l with
    | some st' =>
      simp only [runLines, hp]
      exact ih st'
    | none =>
      simp only [runLines, hp]
      rfl

/-- Inside a comment, a line without an end marker changes nothing. -/
theorem procLine_comment_skip (st : PState) (line : List Char)
    (hc : st.commentMark = true) (he : mt commentEndPat line = none) :
    procLine st line = some st := by
  rw [procLine, hc]
  simp only [if_true, he, Option.isSome_none, Bool.false_eq_true, if_false]

/-- Inside a comment, a whole run of lines without end markers changes
nothing. -/
theorem runLines_comment_skip (mid : List (List Char)) : ∀ (st : PState),
    st.commentMark = true → (∀ l ∈ mid, mt commentEndPat l = none) →
    runLines st mid = some st := by
  induction mid with
  | nil => intro st _ _; rfl
  | cons l ls ih =>
    intro st hc hmid
    rw [runLines, procLine_comment_skip st l hc (hmid l (List.mem_cons_self l ls))]
    exact ih st hc (fun l' hl' => hmid l' (List.mem_cons_of_mem l hl'))

/-- A line recognized as a comment start (matching no higher-priority
pattern and carrying no end marker) only sets the comment flag. -/
theorem procLine_comment_open (st : PState) (start : List Char)
    (hc : st.commentMark = false) (hm : st.multi = [])
    (hs3 : mt commentEndPat start = none)
    (hs4 : mt multilinesPat start = none)
    (hs5 : mt complexAttrPat start = none)
    (hs6 : mt simpleAttrPat start = none)
    (hs7 : mt groupPat start = none)
    (hs8 : mt groupDonePat start = none)
    (hs2 : (mt commentStartPat start).isSome = true) :
    procLine st start = some { st with commentMark := true } := by
  rw [procLine_classify st start hc hm hs4]
  rw [classify, hs5, hs6, hs7, hs8]
  simp only [Option.isSome_none, Bool.false_eq_true, if_false, hs2, if_true, hs3]

/-- The pre-scan splits over concatenation, shifting the line number. -/
theorem preScanAux_append (a b : List (List Char)) : ∀ (s : ScanSt) (i : Nat),
    preScanAux s i (a ++ b) = preScanAux (preScanAux s i a) (i + a.length) b := by
  induction a with
  | nil => intro s i; simp [preScanAux]
  | cons l ls ih =>
    intro s i
    show preScanAux (preScanStep s i l) (i + 1) (ls ++ b) = _
    rw [ih]
    show _ = preScanAux (preScanAux (preScanStep s i l) (i + 1) ls) (i + (ls.length + 1)) b
    have h : i + 1 + ls.length = i + (ls.length + 1) := by omega
    rw [h]

/-- Inside a comment, a pre-scan line without an end marker changes
nothing. -/
theorem preScanStep_comment_skip (s : ScanSt) (i : Nat) (l : List Char)
    (hc : s.inComment = true) (he : mt commentEndPat l = none) :
    preScanStep s i l = s := by
  rw [preScanStep, hc]
  simp only [if_true, he, Option.isSome_none, Bool.false_eq_true, if_false]

/-- Inside a comment, a whole run of pre-scan lines without end markers
changes nothing. -/
theorem preScanAux_comment_skip (mid : List (List Char)) : ∀ (s : ScanSt) (i : Nat),
    s.inComment = true → (∀ l ∈ mid, mt commentEndPat l = none) →
    preScanAux s i mid = s := by
  induction mid with
  | nil => intro s i _ _; rfl
  | cons l ls ih =>
    intro s i hc hmid
    show preScanAux (preScanStep s i l) (i + 1) ls = s
    rw [preScanStep_comment_skip s i l hc (hmid l (List.mem_cons_self l ls))]
    exact ih s (i + 1) hc (fun l' hl' => hmid l' (List.mem_cons_of_mem l hl'))

/-- A line-leading comment-start marker without an end marker flips the
pre-scan into comment mode and records nothing. -/
theorem preScanStep_comment_open (s : ScanSt) (i : Nat) (start : List Char)
    (hc : s.inComment = false)
    (hs1 : (mt preCommentStartPat start).isSome = true)
    (hs3 : mt commentEndPat start = none) :
    preScanStep s i start = { s with inComment := true } := by
  rw [preScanStep, hc]
  simp only [Bool.false_eq_true, if_false, hs1, if_true, hs3, Option.isSome_none]

/-- The key list after a dictionary assignment: unchanged for an existing
key, extended at the end for a new one. -/
theorem keys_dSet {V : Type} (d : List (List Char × V)) (k : List Char) (v : V) :
    (dSet d k v).map (fun x => x.1)
      = if k ∈ d.map (fun x => x.1) then d.map (fun x => x.1)
        else d.map (fun x => x.1) ++ [k] := by
  induction d with
  | nil => simp [dSet]
  | cons kv d ih =>
    obtain ⟨k0, v0⟩ := kv
    by_cases hk : k0 = k
    · show ((if k0 = k then (k, v) :: d else (k0, v0) :: dSet d k v).map _) = _
      rw [if_pos hk]
      rw [if_pos (by rw [List.map_cons, hk]; exact List.mem_cons_self k _)]
      rw [List.map_cons, List.map_cons, hk]
    · show ((if k0 = k then (k, v) :: d else (k0, v0) :: dSet d k v).map _) = _
      rw [if_neg hk]
      by_cases hmem : k ∈ d.map (fun x => x.1)
      · rw [if_pos (by rw [List.map_cons]; exact List.mem_cons_of_mem _ hmem)]
        rw [List.map_cons, List.map_cons, ih, if_pos hmem]
      · rw [if_neg (by
          rw [List.map_cons]
          intro hcontra
          rcases List.mem_cons.mp hcontra with h | h
          · exact hk h.symm
          · exact hmem h)]
        rw [List.map_cons, List.map_cons, ih, if_neg hmem, List.cons_append]

/-- One pre-scan step preserves agreement of the comment flag and of the
recorded key list between two runs that differ only in line numbering. -/
theorem preScanStep_keys_index (s1 s2 : ScanSt) (i1 i2 : Nat) (l : List Char)
    (hC : s1.inComment = s2.inComment)
    (hK : s1.locs.map (fun x => x.1) = s2.locs.map (fun x => x.1)) :
    (preScanStep s1 i1 l).inComment = (preScanStep s2 i2 l).inComment ∧
    (preScanStep s1 i1 l).locs.map (fun x => x.1)
      = (preScanStep s2 i2 l).locs.map (fun x => x.1) := by
  rw [preScanStep, preScanStep, hC]
  by_cases h1 : s2.inComment = true
  · rw [if_pos h1, if_pos h1]
    by_cases h2 : (mt commentEndPat l).isSome = true
    · rw [if_pos h2, if_pos h2]
      exact ⟨rfl, hK⟩
    · rw [if_neg h2, if_neg h2]
      exact ⟨hC, hK⟩
  · rw [if_neg h1, if_neg h1]
    by_cases h2 : (mt preCommentStartPat l).isSome = true
    · rw [if_pos h2, if_pos h2]
      by_cases h3 : (mt commentEndPat l).isSome = true
      · rw [if_pos h3, if_pos h3]
        exact ⟨hC, hK⟩
      · rw [if_neg h3, if_neg h3]
        exact ⟨rfl, hK⟩
    · rw [if_neg h2, if_neg h2]
      cases hm : mt cellPat l with
      | none => exact ⟨hC, hK⟩
      | some r =>
        constructor
        · rfl
        · show (dSet s1.locs (stripQuotes (stripWs (capGet r 1))) i1).map (fun x => x.1)
            = (dSet s2.locs (stripQuotes (stripWs (capGet r 1))) i2).map (fun x => x.1)
          rw [keys_dSet, keys_dSet, hK]

/-- A whole pre-scan preserves agreement of the comment flag and the
recorded key list between two runs that differ only in line numbering. -/
theorem preScanAux_keys_index (ls : List (List Char)) :
    ∀ (s1 s2 : ScanSt) (i1 i2 : Nat),
    s1.inComment = s2.inComment →
    s1.locs.map (fun x => x.1) = s2.locs.map (fun x => x.1) →
    (preScanAux s1 i1 ls).inComment = (preScanAux s2 i2 ls).inComment ∧
    (preScanAux s1 i1 ls).locs.map (fun x => x.1)
      = (preScanAux s2 i2 ls).locs.map (fun x => x.1) := by
  induction ls with
  | nil => intro s1 s2 i1 i2 hC hK; exact ⟨hC, hK⟩
  | cons l ls ih =>
    intro s1 s2 i1 i2 hC hK
    obtain ⟨hC', hK'⟩ := preScanStep_keys_index s1 s2 i1 i2 l hC hK
    exact ih (preScanStep s1 i1 l) (preScanStep s2 i2 l) (i1 + 1) (i2 + 1) hC' hK'

/-- C8 (amended): comment protection holds exactly when the comment-start
marker is recognized.  If the start line begins with the marker (after
optional whitespace), carries no end marker, and matches no
higher-priority pattern of the full parser (continuation, attribute,
group open, group close), then the lines between it and the first
end-marker line contribute nothing: the full parse of the file equals the
full parse of the file with those lines removed (hence a cell declaration
there never reaches getCellList), and the pre-scan records the same cell
names.  The counterexample shows both protections fail for a mid-line
marker. -/
theorem c8_amended (pre mid post : List (List Char)) (start : List Char)
    (hs1 : (mt preCommentStartPat start).isSome = true)
    (hs2 : (mt commentStartPat start).isSome = true)
    (hs3 : mt commentEndPat start = none)
    (hs4 : mt multilinesPat start = none)
    (hs5 : mt complexAttrPat start = none)
    (hs6 : mt simpleAttrPat start = none)
    (hs7 : mt groupPat start = none)
    (hs8 : mt groupDonePat start = none)
    (hmid : ∀ l ∈ mid, mt commentEndPat l = none) :
    (∀ st : PState, runLines initState pre = some st →
      st.commentMark = false → st.multi = [] →
      runLines initState (pre ++ start :: (mid ++ post))
        = runLines initState (pre ++ start :: post) ∧
      constructTree (pre ++ start :: (mid ++ post))
        = constructTree (pre ++ start :: post)) ∧
    ((preScanAux { inComment := false, locs := [] } 1 pre).inComment = false →
      (preScan (pre ++ start :: (mid ++ post))).map (fun x => x.1)
        = (preScan (pre ++ start :: post)).map (fun x => x.1)) := by
  constructor
  · intro st hpre hc hm
    have hopen := procLine_comment_open st start hc hm hs3 hs4 hs5 hs6 hs7 hs8 hs2
    have hrun : runLines initState (pre ++ start :: (mid ++ post))
        = runLines initState (pre ++ start :: post) := by
      rw [runLines_append, runLines_append, hpre]
      show (runLines st (start :: (mid ++ post))) = runLines st (start :: post)
      simp only [runLines, hopen]
      rw [runLines_append]
      rw [runLines_comment_skip mid { st with commentMark := true } rfl hmid]
      rfl
    refine ⟨hrun, ?_⟩
    unfold constructTree
    rw [hrun]
  · intro hpre0
    show (preScanAux { inComment := false, locs := [] } 1
            (pre ++ start :: (mid ++ post))).locs.map (fun x => x.1)
      = (preScanAux { inComment := false, locs := [] } 1
            (pre ++ start :: post)).locs.map (fun x => x.1)
    rw [preScanAux_append, preScanAux_append]
    show (preScanAux
            (preScanStep (preScanAux { inComment := false, locs := [] } 1 pre)
              (1 + pre.length) start)
            (1 + pre.length + 1) (mid ++ post)).locs.map (fun x => x.1)
      = (preScanAux
            (preScanStep (preScanAux { inComment := false, locs := [] } 1 pre)
              (1 + pre.length) start)
            (1 + pre.length + 1) post).locs.map (fun x => x.1)
    rw [preScanStep_comment_open _ _ _ hpre0 hs1 hs3]
    rw [preScanAux_append]
    rw [preScanAux_comment_skip mid _ _ rfl hmid]
    exact (preScanAux_keys_index post _ _ _ _ rfl rfl).2

/-- Witness for C8: removing the commented-out cell line changes neither
the parse nor the recorded pre-scan names, for a file whose comment opens
with a line-leading marker. -/
theorem c8_amended_witness :
    runLines initState
        ([lc "library (L) \x7b"] ++ lc "/* note" ::
          ([lc "cell (FAKE) \x7b"] ++ [lc "*/", lc "\x7d"]))
      = runLines initState
        ([lc "library (L) \x7b"] ++ lc "/* note" :: [lc "*/", lc "\x7d"]) ∧
    (preScan ([lc "library (L) \x7b"] ++ lc "/* note" ::
          ([lc "cell (FAKE) \x7b"] ++ [lc "*/", lc "\x7d"]))).map (fun x => x.1)
      = (preScan ([lc "library (L) \x7b"] ++ lc "/* note" ::
          [lc "*/", lc "\x7d"])).map (fun x => x.1) :=
  ⟨((c8_amended [lc "library (L) \x7b"] [lc "cell (FAKE) \x7b"] [lc "*/", lc "\x7d"]
      (lc "/* note") rfl rfl rfl rfl rfl rfl rfl rfl (by decide)).1
      { multi := [], commentMark := false,
        groupList := [{ fatherGroupNum := -1, depth := 0, type := lc "library",
                        name := lc "L", attrs := [] }],
        opened := [0], lastOpened := 0 } rfl rfl rfl).1,
   (c8_amended [lc "library (L) \x7b"] [lc "cell (FAKE) \x7b"] [lc "*/", lc "\x7d"]
      (lc "/* note") rfl rfl rfl rfl rfl rfl rfl rfl (by decide)).2 rfl⟩

/-- Father index stored at a flat-list position. -/
def fatherAt (gl : List GroupRec) (j : Nat) : Option Int :=
  (gl.get? j).map (fun g => g.fatherGroupNum)

/-- Indices of the records whose father is i, in ascending (declaration)
order; index 0 is excluded just as the backward pass excludes it. -/
def childIdxs (gl : List GroupRec) (i : Nat) : List Nat :=
  (List.range gl.length).filter
    (fun j => decide (¬ j = 0) && decide (fatherAt gl j = some (i : Int)))

/-- The father of every record is -1 or a strictly earlier index — the
shape the parsing loop guarantees, since a father is taken from the stack
of already-created groups. -/
def FathersValid (gl : List GroupRec) : Prop :=
  ∀ j g, gl.get? j = some g →
    g.fatherGroupNum = -1 ∨ (0 ≤ g.fatherGroupNum ∧ g.fatherGroupNum.toNat < j)

/-- Reference tree: the subtree rooted at index i, children in ascending
index order, built with explicit fuel (validity of fathers makes any fuel
of at least the list length sufficient). -/
def subtreeF (gl : List GroupRec) : Nat → Nat → GTree
  | 0, _ => GTree.node 0 0 [] [] [] []
  | fuel + 1, i =>
    match gl.get? i with
    | none => GTree.node 0 0 [] [] [] []
    | some g =>
      GTree.node g.fatherGroupNum g.depth g.type g.name g.attrs
        ((childIdxs gl i).map (subtreeF gl fuel))

/-- Reference tree with adequate fuel. -/
def subtree (gl : List GroupRec) (i : Nat) : GTree := subtreeF gl gl.length i

/-- Membership in a child-index list. -/
theorem mem_childIdxs (gl : List GroupRec) (i j : Nat) :
    j ∈ childIdxs gl i ↔ j < gl.length ∧ ¬ j = 0 ∧ fatherAt gl j = some (i : Int) := by
  simp [childIdxs, List.mem_filter, List.mem_range, and_assoc]

/-- With valid fathers, children sit strictly after their father. -/
theorem childIdxs_gt (gl : List GroupRec) (hv : FathersValid gl) (i j : Nat)
    (hj : j ∈ childIdxs gl i) : i < j := by
  obtain ⟨hlt, hne, hf⟩ := (mem_childIdxs gl i j).mp hj
  unfold fatherAt at hf
  obtain ⟨g, hg, hfg⟩ := Option.map_eq_some'.mp hf
  rcases hv j g hg with h1 | ⟨h2, h3⟩
  · rw [h1] at hfg
    exact absurd hfg.symm (by omega)
  · have : g.fatherGroupNum.toNat = i := by
      rw [hfg]
      exact Int.toNat_natCast i
    omega

/-- An out-of-range index gives the placeholder node at any fuel. -/
theorem subtreeF_none (gl : List GroupRec) (f i : Nat) (h : gl.get? i = none) :
    subtreeF gl f i = GTree.node 0 0 [] [] [] [] := by
  cases f with
  | zero => rfl
  | succ f' => simp only [subtreeF, h]

/-- Unfolding of the reference subtree at positive fuel on a valid
index. -/
theorem subtreeF_some (gl : List GroupRec) (f i : Nat) (g : GroupRec)
    (h : gl.get? i = some g) :
    subtreeF gl (f + 1) i
      = GTree.node g.fatherGroupNum g.depth g.type g.name g.attrs
          ((childIdxs gl i).map (subtreeF gl f)) := by
  simp only [subtreeF, h]

/-- Any two adequate fuels give the same subtree. -/
theorem subtreeF_congr (gl : List GroupRec) (hv : FathersValid gl) :
    ∀ (d f1 f2 i : Nat), gl.length - i ≤ d →
    gl.length - i ≤ f1 → gl.length - i ≤ f2 →
    subtreeF gl f1 i = subtreeF gl f2 i := by
  intro d
  induction d with
  | zero =>
    intro f1 f2 i hd h1 h2
    have hge : gl.length ≤ i := by omega
    have hnone : gl.get? i = none := by
      rw [List.get?_eq_getElem?]
      exact List.getElem?_eq_none hge
    rw [subtreeF_none gl f1 i hnone, subtreeF_none gl f2 i hnone]
  | succ d ih =>
    intro f1 f2 i hd h1 h2
    by_cases hge : gl.length ≤ i
    · have hnone : gl.get? i = none := by
        rw [List.get?_eq_getElem?]
        exact List.getElem?_eq_none hge
      rw [subtreeF_none gl f1 i hnone, subtreeF_none gl f2 i hnone]
    · have hi : i < gl.length := by omega
      obtain ⟨f1', rfl⟩ : ∃ f1', f1 = f1' + 1 := ⟨f1 - 1, by omega⟩
      obtain ⟨f2', rfl⟩ : ∃ f2', f2 = f2' + 1 := ⟨f2 - 1, by omega⟩
      cases hg : gl.get? i with
      | none =>
        rw [subtreeF_none gl _ i hg, subtreeF_none gl _ i hg]
      | some g =>
        rw [subtreeF_some gl f1' i g hg, subtreeF_some gl f2' i g hg]
        have hmap : (childIdxs gl i).map (subtreeF gl f1')
            = (childIdxs gl i).map (subtreeF gl f2') := by
          apply List.map_congr_left
          intro j hj
          have hij : i < j := childIdxs_gt gl hv i j hj
          exact ih f1' f2' j (by omega) (by omega) (by omega)
        rw [hmap]

/-- Child-index lists are strictly ascending. -/
theorem childIdxs_pairwise (gl : List GroupRec) (i : Nat) :
    (childIdxs gl i).Pairwise (fun a b => a < b) :=
  List.Pairwise.filter _ (List.pairwise_lt_range gl.length)

/-- On a strictly ascending list containing m, keeping the elements of at
least m is the same as putting m in front of the elements of at least
m + 1. -/
theorem filter_ge_sorted_cons (l : List Nat) (m : Nat)
    (hs : l.Pairwise (fun a b => a < b)) (hm : m ∈ l) :
    l.filter (fun j => decide (m ≤ j)) = m :: l.filter (fun j => decide (m + 1 ≤ j)) := by
  induction l with
  | nil => simp at hm
  | cons x xs ih =>
    rw [List.pairwise_cons] at hs
    obtain ⟨hx, hxs⟩ := hs
    rcases List.mem_cons.mp hm with h | h
    · subst h
      rw [List.filter_cons_of_pos (by simp)]
      rw [List.filter_cons_of_neg (by simp)]
      have : xs.filter (fun j => decide (m ≤ j)) = xs.filter (fun j => decide (m + 1 ≤ j)) := by
        apply List.filter_congr
        intro y hy
        have := hx y hy
        simp only [decide_eq_decide]
        omega
      rw [this]
    · have hxm : x < m := hx m h
      rw [List.filter_cons_of_neg (by simp; omega)]
      rw [List.filter_cons_of_neg (by simp; omega)]
      exact ih hxs h

/-- The invariant of organizeData's backward pass after all indices of at
least m have been processed: every slot still holds its flat record,
together with the full subtrees of exactly its children of index at
least m, in ascending order. -/
def orgInv (gl : List GroupRec) (m : Nat) (arr : List (GroupRec × List GTree)) : Prop :=
  arr.length = gl.length ∧
  ∀ k, arr.get? k = (gl.get? k).map (fun g =>
    (g, ((childIdxs gl k).filter (fun j => decide (m ≤ j))).map (subtree gl)))

/-- The invariant holds before the pass starts. -/
theorem orgInv_init (gl : List GroupRec) :
    orgInv gl gl.length (gl.map (fun g => (g, []))) := by
  constructor
  · simp
  · intro k
    rw [List.get?_map]
    cases hg : gl.get? k with
    | none => rfl
    | some g =>
      have hfil : (childIdxs gl k).filter (fun j => decide (gl.length ≤ j)) = [] := by
        rw [List.filter_eq_nil]
        intro j hj
        have := ((mem_childIdxs gl k j).mp hj).1
        simp
        omega
      rw [Option.map_some', Option.map_some', hfil]
      rfl

/-- Canonical unfolding of the reference subtree on a valid index. -/
theorem subtree_unfold (gl : List GroupRec) (hv : FathersValid gl) (i : Nat)
    (g : GroupRec) (hg : gl.get? i = some g) :
    subtree gl i
      = GTree.node g.fatherGroupNum g.depth g.type g.name g.attrs
          ((childIdxs gl i).map (subtree gl)) := by
  have hi : i < gl.length := (List.get?_eq_some.mp hg).1
  obtain ⟨L', hL⟩ : ∃ L', gl.length = L' + 1 := ⟨gl.length - 1, by omega⟩
  show subtreeF gl gl.length i = _
  conv_lhs => rw [hL]
  rw [subtreeF_some gl L' i g hg]
  congr 1
  apply List.map_congr_left
  intro j hj
  have hij := childIdxs_gt gl hv i j hj
  have hjl := ((mem_childIdxs gl i j).mp hj).1
  exact subtreeF_congr gl hv gl.length L' gl.length j (by omega) (by omega) (by omega)

/-- One backward-pass iteration at index i+1 succeeds and extends the
invariant down to i+1: the record at i+1, whose own children are already
complete, is prepended to its father's child list (or dropped when its
father is -1). -/
theorem orgStep_inv (gl : List GroupRec) (hv : FathersValid gl) (i : Nat)
    (hlt : i + 1 < gl.length) (arr : List (GroupRec × List GTree))
    (hinv : orgInv gl (i + 2) arr) :
    ∃ arr', orgStep arr (i + 1) = some arr' ∧ orgInv gl (i + 1) arr' := by
  obtain ⟨hlen, hget⟩ := hinv
  obtain ⟨g, hg⟩ : ∃ g, gl.get? (i + 1) = some g := by
    rw [List.get?_eq_getElem?]
    exact ⟨gl[i + 1], List.getElem?_eq_getElem hlt⟩
  have harr : arr.get? (i + 1)
      = some (g, ((childIdxs gl (i + 1)).filter
          (fun j => decide (i + 2 ≤ j))).map (subtree gl)) := by
    rw [hget, hg]
    rfl
  have hchAll : (childIdxs gl (i + 1)).filter (fun j => decide (i + 2 ≤ j))
      = childIdxs gl (i + 1) := by
    rw [List.filter_eq_self]
    intro j hj
    have := childIdxs_gt gl hv (i + 1) j hj
    simp
    omega
  have htree : toTree g
      (((childIdxs gl (i + 1)).filter (fun j => decide (i + 2 ≤ j))).map (subtree gl))
      = subtree gl (i + 1) := by
    rw [hchAll]
    exact (subtree_unfold gl hv (i + 1) g hg).symm
  simp only [orgStep, harr]
  by_cases hf : g.fatherGroupNum = -1
  · rw [if_pos hf]
    refine ⟨arr, rfl, hlen, ?_⟩
    intro k
    rw [hget k]
    cases hgk : gl.get? k with
    | none => rfl
    | some gk =>
      rw [Option.map_some', Option.map_some']
      have hfil : (childIdxs gl k).filter (fun j => decide (i + 2 ≤ j))
          = (childIdxs gl k).filter (fun j => decide (i + 1 ≤ j)) := by
        apply List.filter_congr
        intro j hj
        have hji : ¬ j = i + 1 := by
          intro hji
          rw [hji] at hj
          obtain ⟨_, _, hfa⟩ := (mem_childIdxs gl k (i + 1)).mp hj
          unfold fatherAt at hfa
          rw [hg] at hfa
          rw [Option.map_some'] at hfa
          have heq : g.fatherGroupNum = (k : Int) := Option.some.inj hfa
          rw [hf] at heq
          omega
        simp only [decide_eq_decide]
        omega
      rw [hfil]
  · rw [if_neg hf]
    rcases hv (i + 1) g hg with h1 | ⟨h2, h3⟩
    · exact absurd h1 hf
    have hfnl : g.fatherGroupNum.toNat < gl.length := by omega
    obtain ⟨fg, hfg⟩ : ∃ fg, gl.get? g.fatherGroupNum.toNat = some fg := by
      rw [List.get?_eq_getElem?]
      exact ⟨gl[g.fatherGroupNum.toNat], List.getElem?_eq_getElem hfnl⟩
    have harrf : arr.get? g.fatherGroupNum.toNat
        = some (fg, ((childIdxs gl g.fatherGroupNum.toNat).filter
            (fun j => decide (i + 2 ≤ j))).map (subtree gl)) := by
      rw [hget, hfg]
      rfl
    unfold pyModify
    rw [if_neg (by omega)]
    rw [harrf]
    refine ⟨_, rfl, ?_, ?_⟩
    · rw [List.length_set]
      exact hlen
    · intro k
      by_cases hk : g.fatherGroupNum.toNat = k
      · subst hk
        rw [List.get?_eq_getElem?,
            List.getElem?_set_eq_of_lt _ (by rw [hlen]; exact hfnl)]
        rw [hfg, Option.map_some']
        have hmem : i + 1 ∈ childIdxs gl g.fatherGroupNum.toNat := by
          rw [mem_childIdxs]
          refine ⟨hlt, by omega, ?_⟩
          unfold fatherAt
          rw [hg, Option.map_some']
          congr 1
          omega
        rw [filter_ge_sorted_cons _ (i + 1)
            (childIdxs_pairwise gl g.fatherGroupNum.toNat) hmem]
        rw [List.map_cons]
        rw [← htree]
      · rw [List.get?_eq_getElem?, List.getElem?_set_ne hk,
            ← List.get?_eq_getElem?, hget k]
        cases hgk : gl.get? k with
        | none => rfl
        | some gk =>
          rw [Option.map_some', Option.map_some']
          have hfil : (childIdxs gl k).filter (fun j => decide (i + 2 ≤ j))
              = (childIdxs gl k).filter (fun j => decide (i + 1 ≤ j)) := by
            apply List.filter_congr
            intro j hj
            have hji : ¬ j = i + 1 := by
              intro hji
              rw [hji] at hj
              obtain ⟨_, _, hfa⟩ := (mem_childIdxs gl k (i + 1)).mp hj
              unfold fatherAt at hfa
              rw [hg, Option.map_some'] at hfa
              have heq : g.fatherGroupNum = (k : Int) := Option.some.inj hfa
              apply hk
              rw [heq]
              exact Int.toNat_natCast k
            simp only [decide_eq_decide]
            omega
          rw [hfil]

/-- Running the backward pass from index i down to 1 turns the invariant
at i+1 into the full invariant. -/
theorem orgLoop_inv (gl : List GroupRec) (hv : FathersValid gl) :
    ∀ (i : Nat), i < gl.length → ∀ arr, orgInv gl (i + 1) arr →
    ∃ arr', orgLoop arr i = some arr' ∧ orgInv gl 1 arr' := by
  intro i
  induction i with
  | zero =>
    intro _ arr hinv
    exact ⟨arr, rfl, hinv⟩
  | succ i ih =>
    intro hlt arr hinv
    obtain ⟨arr1, hstep, hinv1⟩ := orgStep_inv gl hv i hlt arr hinv
    obtain ⟨arr', hloop, hinv'⟩ := ih (by omega) arr1 hinv1
    refine ⟨arr', ?_, hinv'⟩
    simp only [orgLoop, hstep]
    exact hloop

/-- organizeData computes exactly the reference subtree rooted at the
first record, for any non-empty flat list with valid fathers: every
parent ends up with its children in ascending declaration order. -/
theorem organizeData_eq (gl : List GroupRec) (hv : FathersValid gl) (hne : ¬ gl = []) :
    organizeData gl = some (subtree gl 0) := by
  have hlen : 0 < gl.length := List.length_pos.mpr hne
  have hstart : orgInv gl ((gl.length - 1) + 1) (gl.map (fun g => (g, []))) := by
    have h : (gl.length - 1) + 1 = gl.length := by omega
    rw [h]
    exact orgInv_init gl
  obtain ⟨arr', hloop, hlen', hget'⟩ :=
    orgLoop_inv gl hv (gl.length - 1) (by omega) _ hstart
  unfold organizeData
  rw [hloop]
  obtain ⟨g0, hg0⟩ : ∃ g0, gl.get? 0 = some g0 := by
    rw [List.get?_eq_getElem?]
    exact ⟨gl[0], List.getElem?_eq_getElem hlen⟩
  have h0 : arr'.get? 0
      = some (g0, ((childIdxs gl 0).filter (fun j => decide (1 ≤ j))).map (subtree gl)) := by
    rw [hget', hg0]
    rfl
  have hhead : arr'.head?
      = some (g0, ((childIdxs gl 0).filter (fun j => decide (1 ≤ j))).map (subtree gl)) := by
    cases arr' with
    | nil => simp at h0
    | cons a t => simpa using h0
  show (match arr'.head? with
        | some x => some (toTree x.1 x.2)
        | none => none) = some (subtree gl 0)
  rw [hhead]
  show some (toTree g0 _) = _
  have hfil : (childIdxs gl 0).filter (fun j => decide (1 ≤ j)) = childIdxs gl 0 := by
    rw [List.filter_eq_self]
    intro j hj
    have := ((mem_childIdxs gl 0 j).mp hj).2.1
    simp
    omega
  rw [hfil]
  rw [subtree_unfold gl hv 0 g0 hg0]
  rfl

/-- The stack only holds indices of existing records. -/
def StackOk (st : PState) : Prop :=
  ∀ x ∈ st.opened, x < st.groupList.length

/-- Replacing a record with one carrying the same father keeps fathers
valid. -/
theorem FathersValid_set (l : List GroupRec) (n : Nat) (a b : GroupRec)
    (hga : l.get? n = some a) (hfb : b.fatherGroupNum = a.fatherGroupNum)
    (hv : FathersValid l) : FathersValid (l.set n b) := by
  intro j g hj
  rw [List.get?_eq_getElem?, List.getElem?_set] at hj
  by_cases hn : n = j
  · rw [if_pos hn] at hj
    by_cases hl : n < l.length
    · rw [if_pos hl] at hj
      have hgb : g = b := (Option.some.inj hj).symm
      rw [hgb, hfb]
      exact hv j a (by rw [← hn]; exact hga)
    · rw [if_neg hl] at hj
      exact absurd hj (by simp)
  · rw [if_neg hn] at hj
    exact hv j g (by rw [List.get?_eq_getElem?]; exact hj)

/-- A successful in-place update through a father-preserving function
keeps fathers valid and the length. -/
theorem pyModify_preserves (l : List GroupRec) (i : Int) (f : GroupRec → GroupRec)
    (l' : List GroupRec) (hf : ∀ a, (f a).fatherGroupNum = a.fatherGroupNum)
    (h : pyModify l i f = some l') (hv : FathersValid l) :
    FathersValid l' ∧ l'.length = l.length := by
  unfold pyModify at h
  by_cases hi : i < 0
  · rw [if_pos hi] at h
    by_cases hj : (l.length : Int) + i < 0
    · rw [if_pos hj] at h
      exact absurd h (by simp)
    · rw [if_neg hj] at h
      cases hget : l.get? ((l.length : Int) + i).toNat with
      | none =>
        rw [hget] at h
        exact absurd h (by simp)
      | some a =>
        rw [hget] at h
        have hl' : l' = l.set ((l.length : Int) + i).toNat (f a) :=
          (Option.some.inj h).symm
        subst hl'
        exact ⟨FathersValid_set l _ a (f a) hget (hf a) hv, List.length_set l _ _⟩
  · rw [if_neg hi] at h
    cases hget : l.get? i.toNat with
    | none =>
      rw [hget] at h
      exact absurd h (by simp)
    | some a =>
      rw [hget] at h
      have hl' : l' = l.set i.toNat (f a) := (Option.some.inj h).symm
      subst hl'
      exact ⟨FathersValid_set l _ a (f a) hget (hf a) hv, List.length_set l _ _⟩

/-- The attribute-storing helpers keep the invariants (group list shape
untouched except one record's attributes). -/
theorem applyAttr_preserves (st st' : PState) (f : GroupRec → GroupRec)
    (hf : ∀ a, (f a).fatherGroupNum = a.fatherGroupNum)
    (h : (pyModify st.groupList st.lastOpened f).map
          (fun gl => { st with groupList := gl }) = some st')
    (hv : FathersValid st.groupList) (hs : StackOk st) :
    FathersValid st'.groupList ∧ StackOk st' := by
  obtain ⟨gl', hmod, hst'⟩ := Option.map_eq_some'.mp h
  obtain ⟨hv', hlen⟩ := pyModify_preserves st.groupList st.lastOpened f gl' hf hmod hv
  rw [← hst']
  refine ⟨hv', ?_⟩
  intro x hx
  show x < gl'.length
  rw [hlen]
  exact hs x hx

/-- The elif chain keeps the invariants. -/
theorem classify_preserves (st st' : PState) (line : List Char)
    (h : classify st line = some st')
    (hv : FathersValid st.groupList) (hs : StackOk st) :
    FathersValid st'.groupList ∧ StackOk st' := by
  have hfather : lastOpenedOf st.opened = -1 ∨
      (0 ≤ lastOpenedOf st.opened ∧
        (lastOpenedOf st.opened).toNat < st.groupList.length) := by
    unfold lastOpenedOf
    cases hlast : st.opened.getLast? with
    | none => left; rfl
    | some x =>
      right
      have hxmem : x ∈ st.opened := List.mem_of_mem_getLast? hlast
      have hxlt : x < st.groupList.length := hs x hxmem
      exact ⟨Int.natCast_nonneg x, by rw [Int.toNat_natCast]; exact hxlt⟩
  unfold classify at h
  split at h
  · rename_i r hr
    exact applyAttr_preserves st st'
      (fun g => { g with attrs := complexInsert g.attrs (capGet r 2) (capGet r 3) })
      (fun a => rfl) h hv hs
  · split at h
    · rename_i r hr
      exact applyAttr_preserves st st'
        (fun g => { g with attrs := dSet g.attrs (capGet r 2) (AttrVal.str (capGet r 3)) })
        (fun a => rfl) h hv hs
    · split at h
      · -- group open
        have hst' := Option.some.inj h
        rw [← hst']
        constructor
        · intro j g hj
          rw [List.get?_eq_getElem?] at hj
          by_cases hjl : j < st.groupList.length
          · rw [List.getElem?_append_left hjl] at hj
            exact hv j g (by rw [List.get?_eq_getElem?]; exact hj)
          · obtain ⟨hjlt, _⟩ := List.getElem?_eq_some.mp hj
            rw [List.length_append, List.length_singleton] at hjlt
            have hj0 : j = st.groupList.length := by omega
            rw [hj0] at hj
            rw [List.getElem?_append_right (Nat.le_refl _)] at hj
            simp at hj
            rw [← hj]
            show lastOpenedOf st.opened = -1 ∨
              (0 ≤ lastOpenedOf st.opened ∧ (lastOpenedOf st.opened).toNat < j)
            rcases hfather with h1 | ⟨h2, h3⟩
            · exact Or.inl h1
            · exact Or.inr ⟨h2, by omega⟩
        · intro x hx
          show x < (st.groupList ++ _).length
          rw [List.length_append, List.length_singleton]
          rcases List.mem_append.mp hx with h1 | h1
          · have := hs x h1
            omega
          · rw [List.mem_singleton] at h1
            omega
      · split at h
        · -- group close
          split at h
          · exact absurd h (by simp)
          · have hst' := Option.some.inj h
            rw [← hst']
            refine ⟨hv, ?_⟩
            intro x hx
            exact hs x (List.dropLast_subset _ hx)
        · split at h
          · -- comment start, with or without an end on the same line
            split at h
            · have hst' := Option.some.inj h
              rw [← hst']
              exact ⟨hv, hs⟩
            · have hst' := Option.some.inj h
              rw [← hst']
              exact ⟨hv, hs⟩
          · split at h
            · have hst' := Option.some.inj h
              rw [← hst']
              exact ⟨hv, hs⟩
            · split at h
              · rename_i r hr
                exact applyAttr_preserves st st'
                  (fun g => { g with
                    attrs := complexInsert g.attrs (capGet r 2) (capGet r 3) })
                  (fun a => rfl) h hv hs
              · split at h
                · rename_i r hr
                  exact applyAttr_preserves st st'
                    (fun g => { g with
                      attrs := dSet g.attrs (capGet r 2) (AttrVal.str (capGet r 3)) })
                    (fun a => rfl) h hv hs
                · have hst' := Option.some.inj h
                  rw [← hst']
                  exact ⟨hv, hs⟩

/-- Processing one line keeps the invariants. -/
theorem procLine_preserves (st st' : PState) (line : List Char)
    (h : procLine st line = some st')
    (hv : FathersValid st.groupList) (hs : StackOk st) :
    FathersValid st'.groupList ∧ StackOk st' := by
  unfold procLine at h
  split at h
  · split at h
    · have hst' := Option.some.inj h
      rw [← hst']
      exact ⟨hv, hs⟩
    · have hst' := Option.some.inj h
      rw [← hst']
      exact ⟨hv, hs⟩
  · split at h
    · have hst' := Option.some.inj h
      rw [← hst']
      exact ⟨hv, hs⟩
    · split at h
      · exact classify_preserves st st' line h hv hs
      · split at h
        · rename_i r hr
          obtain ⟨st1, hst1, hst'⟩ := Option.map_eq_some'.mp h
          obtain ⟨hv1, hs1⟩ := classify_preserves st st1 _ hst1 hv hs
          rw [← hst']
          exact ⟨hv1, hs1⟩
        · have hst' := Option.some.inj h
          rw [← hst']
          exact ⟨hv, hs⟩

/-- The whole parsing loop keeps the invariants. -/
theorem runLines_preserves (lines : List (List Char)) : ∀ (st st' : PState),
    runLines st lines = some st' →
    FathersValid st.groupList → StackOk st →
    FathersValid st'.groupList ∧ StackOk st' := by
  induction lines with
  | nil =>
    intro st st' h hv hs
    have := Option.some.inj h
    rw [← this]
    exact ⟨hv, hs⟩
  | cons l ls ih =>
    intro st st' h hv hs
    rw [runLines] at h
    cases hp : procLine st l with
    | none => rw [hp] at h; exact absurd h (by simp)
    | some st1 =>
      rw [hp] at h
      obtain ⟨hv1, hs1⟩ := procLine_preserves st st1 l hp hv hs
      exact ih st1 st' h hv1 hs1

/-- getCellList's fold in filter/map form. -/
theorem cellFold_eq (ch : List GTree) : ∀ acc : List (List Char),
    ch.foldl (fun acc g => if g.type = lc "cell" then acc ++ [g.name] else acc) acc
      = acc ++ (ch.filter (fun g => decide (g.type = lc "cell"))).map GTree.name := by
  induction ch with
  | nil => intro acc; simp
  | cons c cs ih =>
    intro acc
    show cs.foldl _ (if c.type = lc "cell" then acc ++ [c.name] else acc) = _
    by_cases hc : c.type = lc "cell"
    · rw [if_pos hc, ih, List.filter_cons_of_pos (by simp [hc])]
      rw [List.map_cons, List.append_assoc]
      rfl
    · rw [if_neg hc, ih, List.filter_cons_of_neg (by simp [hc])]

/-- Names of the cell-typed reference subtrees built over a list of valid
indices, in that order. -/
theorem cells_map_subtree (gl : List GroupRec) (hv : FathersValid gl) :
    ∀ (idxs : List Nat), (∀ j ∈ idxs, j < gl.length) →
    (((idxs.map (subtree gl)).filter
        (fun t => decide (t.type = lc "cell"))).map GTree.name)
      = idxs.filterMap (fun j => (gl.get? j).bind
          (fun g => if g.type = lc "cell" then some g.name else none)) := by
  intro idxs
  induction idxs with
  | nil => intro _; rfl
  | cons j js ih =>
    intro hall
    have hj : j < gl.length := hall j (List.mem_cons_self j js)
    obtain ⟨g, hg⟩ : ∃ g, gl.get? j = some g := by
      rw [List.get?_eq_getElem?]
      exact ⟨gl[j], List.getElem?_eq_getElem hj⟩
    have hrest := ih (fun x hx => hall x (List.mem_cons_of_mem j hx))
    rw [List.map_cons, List.filterMap_cons, hg]
    have hsub := subtree_unfold gl hv j g hg
    by_cases hc : g.type = lc "cell"
    · rw [List.filter_cons_of_pos (by rw [hsub]; simpa using hc)]
      rw [List.map_cons]
      rw [show ((some g).bind fun g => if g.type = lc "cell" then some g.name else none)
            = some g.name from by simp [hc]]
      show GTree.name (subtree gl j) :: _ = g.name :: _
      rw [hsub]
      show g.name :: _ = g.name :: _
      rw [hrest]
    · rw [List.filter_cons_of_neg (by rw [hsub]; simpa using hc)]
      rw [show ((some g).bind fun g => if g.type = lc "cell" then some g.name else none)
            = none from by simp [hc]]
      exact hrest

/-- C7: for every successfully parsed non-empty file, organizeData builds
exactly the reference tree in which every parent's child list holds its
children in ascending flat-list (that is, source declaration) order; in
particular getCellList returns the names of the cell-typed children of
the root record in exactly that order. -/
theorem c7_order (lines : List (List Char)) (st : PState)
    (h : runLines initState lines = some st) (hne : ¬ st.groupList = []) :
    organizeData st.groupList = some (subtree st.groupList 0) ∧
    getCellList (subtree st.groupList 0)
      = (childIdxs st.groupList 0).filterMap
          (fun j => (st.groupList.get? j).bind
            (fun g => if g.type = lc "cell" then some g.name else none)) := by
  have hv : FathersValid st.groupList := by
    refine (runLines_preserves lines initState st h ?_ ?_).1
    · intro j g hj
      simp [initState] at hj
    · intro x hx
      simp [initState] at hx
  constructor
  · exact organizeData_eq st.groupList hv hne
  · have hlen : 0 < st.groupList.length := List.length_pos.mpr hne
    obtain ⟨g0, hg0⟩ : ∃ g0, st.groupList.get? 0 = some g0 := by
      rw [List.get?_eq_getElem?]
      exact ⟨st.groupList[0], List.getElem?_eq_getElem hlen⟩
    rw [subtree_unfold st.groupList hv 0 g0 hg0]
    show ((childIdxs st.groupList 0).map (subtree st.groupList)).foldl _ [] = _
    rw [cellFold_eq, List.nil_append]
    exact cells_map_subtree st.groupList hv (childIdxs st.groupList 0)
      (fun j hj => ((mem_childIdxs st.groupList 0 j).mp hj).1)

/-- A library with three sibling cells, exercising the backward pass on a
parent with more than two children. -/
def exC7Lines : List (List Char) :=
  [lc "library (L) \x7b", lc "cell (C1) \x7b", lc "\x7d", lc "cell (C2) \x7b",
   lc "\x7d", lc "cell (C3) \x7b", lc "\x7d", lc "\x7d"]

/-- The parser state exC7Lines produces. -/
def exC7St : PState :=
  { multi := [], commentMark := false,
    groupList :=
      [{ fatherGroupNum := -1, depth := 0, type := lc "library", name := lc "L", attrs := [] },
       { fatherGroupNum := 0, depth := 0, type := lc "cell", name := lc "C1", attrs := [] },
       { fatherGroupNum := 0, depth := 0, type := lc "cell", name := lc "C2", attrs := [] },
       { fatherGroupNum := 0, depth := 0, type := lc "cell", name := lc "C3", attrs := [] }],
    opened := [], lastOpened := -1 }

/-- Witness for C7: the three sibling cells come back in declaration
order. -/
theorem c7_order_witness :
    organizeData exC7St.groupList = some (subtree exC7St.groupList 0) ∧
    getCellList (subtree exC7St.groupList 0) = [lc "C1", lc "C2", lc "C3"] :=
  ⟨(c7_order exC7Lines exC7St rfl (by decide)).1,
   ((c7_order exC7Lines exC7St rfl (by decide)).2).trans (by rfl)⟩

/-- Minimum of a list of naturals. -/
def listMin : List Nat → Option Nat
  | [] => none
  | x :: xs =>
    match listMin xs with
    | none => some x
    | some m => some (min x m)

/-- Modelled from the spec's words: the next strictly later recorded
line after line s, if any recorded line is strictly later. -/
def specNextLine (locs : List (List Char × Nat)) (s : Nat) : Option Nat :=
  listMin ((locs.map (fun x => x.2)).filter (fun t => decide (s < t)))

/-- Modelled from the spec's words: the line range of one requested
entity, starting at its recorded line and ending just before the next
strictly later recorded entity's line, or at end of file when it is the
last recorded entity. -/
def specRange (lines : List (List Char)) (locs : List (List Char × Nat))
    (c : List Char) : List (List Char) :=
  match specNextLine locs (locLookup locs c) with
  | some e => pySlice lines (locLookup locs c - 1) (e - 1)
  | none => lines.drop (locLookup locs c - 1)

/-- The minimum of a non-empty list is one of its elements. -/
theorem listMin_mem : ∀ (l : List Nat) (m : Nat), listMin l = some m → m ∈ l := by
  intro l
  induction l with
  | nil => intro m h; simp [listMin] at h
  | cons x xs ih =>
    intro m h
    cases hxs : listMin xs with
    | none =>
      simp only [listMin, hxs] at h
      rw [List.mem_cons]
      exact Or.inl (Option.some.inj h).symm
    | some m' =>
      simp only [listMin, hxs] at h
      have hm : m = min x m' := (Option.some.inj h).symm
      by_cases hle : x ≤ m'
      · rw [List.mem_cons]
        left
        rw [hm]
        omega
      · rw [List.mem_cons]
        right
        have : m = m' := by rw [hm]; omega
        rw [this]
        exact ih m' hxs

/-- On a strictly ascending list the minimum is the head. -/
theorem listMin_sorted (x : Nat) (xs : List Nat)
    (hs : (x :: xs).Pairwise (fun a b => a < b)) :
    listMin (x :: xs) = some x := by
  rw [List.pairwise_cons] at hs
  obtain ⟨hx, _⟩ := hs
  cases hxs : listMin xs with
  | none => simp [listMin, hxs]
  | some m =>
    have hmem := listMin_mem xs m hxs
    have := hx m hmem
    simp only [listMin, hxs]
    congr 1
    omega

/-- On a strictly ascending list, the elements strictly above the element
at position idx are exactly the elements after position idx. -/
theorem filter_gt_sorted : ∀ (vs : List Nat) (idx : Nat) (hidx : idx < vs.length),
    vs.Pairwise (fun a b => a < b) →
    vs.filter (fun t => decide (vs[idx] < t)) = vs.drop (idx + 1) := by
  intro vs
  induction vs with
  | nil => intro idx h; simp at h
  | cons x xs ih =>
    intro idx hlt hs
    rw [List.pairwise_cons] at hs
    obtain ⟨hx, hxs⟩ := hs
    cases idx with
    | zero =>
      rw [List.filter_cons_of_neg (by simp)]
      rw [List.drop_succ_cons, List.drop_zero]
      rw [List.filter_eq_self]
      intro a ha
      simp only [List.getElem_cons_zero]
      simp
      exact hx a ha
    | succ idx =>
      have hlt' : idx < xs.length := by simpa using hlt
      rw [List.getElem_cons_succ]
      rw [List.filter_cons_of_neg (by
        have hmem : xs[idx] ∈ xs := List.getElem_mem hlt'
        have := hx xs[idx] hmem
        simp
        omega)]
      rw [List.drop_succ_cons]
      exact ih idx hlt' hxs

/-- dSet keeps the key list duplicate-free. -/
theorem keys_nodup_dSet {V : Type} (d : List (List Char × V)) (k : List Char) (v : V)
    (hnd : (d.map (fun x => x.1)).Nodup) :
    ((dSet d k v).map (fun x => x.1)).Nodup := by
  rw [keys_dSet]
  by_cases hmem : k ∈ d.map (fun x => x.1)
  · rw [if_pos hmem]
    exact hnd
  · rw [if_neg hmem]
    rw [show d.map (fun x => x.1) ++ [k]
          = d.map (fun x => x.1) ++ k :: [] from rfl]
    rw [List.nodup_middle, List.append_nil, List.nodup_cons]
    exact ⟨hmem, hnd⟩

/-- The pre-scan records each cell name at most once. -/
theorem preScan_keys_nodup (lines : List (List Char)) :
    ((preScan lines).map (fun x => x.1)).Nodup := by
  have haux : ∀ (ls : List (List Char)) (s : ScanSt) (i : Nat),
      (s.locs.map (fun x => x.1)).Nodup →
      ((preScanAux s i ls).locs.map (fun x => x.1)).Nodup := by
    intro ls
    induction ls with
    | nil => intro s i h; exact h
    | cons l ls ih =>
      intro s i h
      apply ih
      unfold preScanStep
      by_cases h1 : s.inComment = true
      · rw [if_pos h1]
        split <;> exact h
      · rw [if_neg h1]
        by_cases h2 : (mt preCommentStartPat l).isSome = true
        · rw [if_pos h2]
          split <;> exact h
        · rw [if_neg h2]
          cases hm : mt cellPat l with
          | none => exact h
          | some r => exact keys_nodup_dSet _ _ _ h
  exact haux lines { inComment := false, locs := [] } 1 (by simp)

/-- With duplicate-free keys, the dictionary lookup of the key stored at
a position returns that position's value. -/
theorem dGet_at_pos {V : Type} (locs : List (List Char × V)) : ∀ (i : Nat)
    (c : List Char) (v : V),
    ((locs.map (fun x => x.1)).Nodup) → locs.get? i = some (c, v) →
    dGet locs c = some v := by
  induction locs with
  | nil => intro i c v _ h; simp at h
  | cons p rest ih =>
    intro i c v hnd h
    obtain ⟨k0, v0⟩ := p
    rw [List.map_cons, List.nodup_cons] at hnd
    obtain ⟨hk0, hnd'⟩ := hnd
    cases i with
    | zero =>
      simp only [List.get?_cons_zero] at h
      have hp := Option.some.inj h
      have h1 : k0 = c := congrArg Prod.fst hp
      have h2 : v0 = v := congrArg Prod.snd hp
      show (if k0 = c then some v0 else dGet rest c) = some v
      rw [if_pos h1, h2]
    | succ i =>
      have h' : rest.get? i = some (c, v) := by
        rw [List.get?_cons_succ] at h
        exact h
      have hcmem : c ∈ rest.map (fun x => x.1) :=
        List.mem_map.mpr ⟨(c, v), List.get?_mem h', rfl⟩
      have hne : ¬ k0 = c := fun he => hk0 (he ▸ hcmem)
      show (if k0 = c then some v0 else dGet rest c) = some v
      rw [if_neg hne]
      exact ih i c v hnd' h'

/-- Position of the first occurrence of a member: in range, and reading
the list there gives the element back. -/
theorem indexOf_spec {α : Type} [BEq α] [LawfulBEq α] (l : List α) (c : α)
    (h : c ∈ l) : l.indexOf c < l.length ∧ l.get? (l.indexOf c) = some c := by
  induction l with
  | nil => simp at h
  | cons x xs ih =>
    by_cases hbeq : x == c
    · have h0 : (x :: xs).indexOf c = 0 := by
        show List.findIdx (fun a => a == c) (x :: xs) = 0
        rw [List.findIdx_cons, hbeq]
        rfl
      rw [h0]
      refine ⟨by simp, ?_⟩
      rw [List.get?_cons_zero]
      congr 1
      exact eq_of_beq hbeq
    · have hmem : c ∈ xs := by
        rcases List.mem_cons.mp h with h1 | h1
        · subst h1
          exact absurd (beq_self_eq_true c) (by simpa using hbeq)
        · exact h1
      have hstep : (x :: xs).indexOf c = xs.indexOf c + 1 := by
        show List.findIdx (fun a => a == c) (x :: xs) = _
        rw [List.findIdx_cons]
        rw [show (x == c) = false from by simpa using hbeq]
        rfl
      obtain ⟨ih1, ih2⟩ := ih hmem
      rw [hstep]
      exact ⟨by simpa using ih1, by rw [List.get?_cons_succ]; exact ih2⟩

/-- For strictly ascending recorded lines and duplicate-free recorded
names, genCellLibFile's range for one recorded cell is exactly the range
the specification words describe. -/
theorem cellSlice_eq_specRange (lines : List (List Char))
    (locs : List (List Char × Nat))
    (hmono : (locs.map (fun x => x.2)).Pairwise (fun a b => a < b))
    (hnd : (locs.map (fun x => x.1)).Nodup)
    (c : List Char) (hc : c ∈ locs.map (fun x => x.1)) :
    cellSlice lines locs (locs.map (fun x => x.1)) c = specRange lines locs c := by
  obtain ⟨hidx, hkget⟩ := indexOf_spec (locs.map (fun x => x.1)) c hc
  have hidx' : (locs.map (fun x => x.1)).indexOf c < locs.length := by
    rw [List.length_map] at hidx
    exact hidx
  obtain ⟨q, hq⟩ : ∃ q, locs.get? ((locs.map (fun x => x.1)).indexOf c) = some q := by
    rw [List.get?_eq_getElem?]
    exact ⟨_, List.getElem?_eq_getElem hidx'⟩
  have hqelem : locs[(locs.map (fun x => x.1)).indexOf c] = q := by
    rw [List.get?_eq_getElem?, List.getElem?_eq_getElem hidx'] at hq
    exact Option.some.inj hq
  have hq1 : q.1 = c := by
    rw [List.get?_map, hq, Option.map_some'] at hkget
    exact Option.some.inj hkget
  have hdget : dGet locs c = some q.2 := by
    apply dGet_at_pos locs ((locs.map (fun x => x.1)).indexOf c) c q.2 hnd
    rw [show ((c, q.2) : List Char × Nat) = q from by rw [← hq1]]
    exact hq
  have hlook : locLookup locs c = q.2 := by
    unfold locLookup
    rw [hdget]
  have hmb2 : (locs.map (fun x => x.1)).indexOf c < (locs.map (fun x => x.2)).length := by
    rw [List.length_map]
    exact hidx'
  have hvidx : (locs.map (fun x => x.2))[(locs.map (fun x => x.1)).indexOf c] = q.2 := by
    rw [List.getElem_map, hqelem]
  have hflt := filter_gt_sorted (locs.map (fun x => x.2))
    ((locs.map (fun x => x.1)).indexOf c)
    (by rw [List.length_map]; exact hidx') hmono
  rw [hvidx] at hflt
  unfold cellSlice specRange
  rw [hlook]
  by_cases hlast :
      (locs.map (fun x => x.1)).indexOf c = (locs.map (fun x => x.1)).length - 1
  · rw [if_pos hlast]
    have hge : (locs.map (fun x => x.2)).length
        ≤ (locs.map (fun x => x.1)).indexOf c + 1 := by
      rw [List.length_map]
      rw [List.length_map] at hlast
      omega
    have hnext : specNextLine locs q.2 = none := by
      unfold specNextLine
      rw [hflt, List.drop_eq_nil_of_le hge]
      rfl
    rw [hnext]
    unfold pySlice
    rw [List.take_length]
  · rw [if_neg hlast]
    have hidx1 : (locs.map (fun x => x.1)).indexOf c + 1 < locs.length := by
      rw [List.length_map] at hlast hidx
      omega
    obtain ⟨q', hq'⟩ : ∃ q', locs.get? ((locs.map (fun x => x.1)).indexOf c + 1)
        = some q' := by
      rw [List.get?_eq_getElem?]
      exact ⟨_, List.getElem?_eq_getElem hidx1⟩
    have hq'elem : locs[(locs.map (fun x => x.1)).indexOf c + 1] = q' := by
      rw [List.get?_eq_getElem?, List.getElem?_eq_getElem hidx1] at hq'
      exact Option.some.inj hq'
    have hkeyget : (locs.map (fun x => x.1)).get?
        ((locs.map (fun x => x.1)).indexOf c + 1) = some q'.1 := by
      rw [List.get?_map, hq']
      rfl
    rw [hkeyget]
    have hdget' : dGet locs q'.1 = some q'.2 :=
      dGet_at_pos locs ((locs.map (fun x => x.1)).indexOf c + 1) q'.1 q'.2 hnd hq'
    have hmb3 : (locs.map (fun x => x.1)).indexOf c + 1
        < (locs.map (fun x => x.2)).length := by
      rw [List.length_map]
      exact hidx1
    have hv1 : (locs.map (fun x => x.2))[(locs.map (fun x => x.1)).indexOf c + 1]
        = q'.2 := by
      rw [List.getElem_map, hq'elem]
    have hnext : specNextLine locs q.2 = some q'.2 := by
      unfold specNextLine
      rw [hflt]
      have hpw : ((locs.map (fun x => x.2)).drop
          ((locs.map (fun x => x.1)).indexOf c + 1)).Pairwise (fun a b => a < b) :=
        List.Pairwise.sublist (List.drop_sublist _ _) hmono
      rw [List.drop_eq_getElem_cons (by rw [List.length_map]; exact hidx1)] at hpw ⊢
      rw [hv1] at hpw ⊢
      exact listMin_sorted q'.2 _ hpw
    rw [hnext]
    show pySlice lines (q.2 - 1) (locLookup locs q'.1 - 1) = _
    unfold locLookup
    rw [hdget']

/-- C6: whenever the pre-scan records cells at strictly increasing line
numbers and every requested cell is recorded, genCellLibFile writes the
original lines preceding the first recorded cell (the header), then for
each requested cell, in request order, the lines from its recorded line
up to just before the next strictly later recorded line — or to end of
file for the last recorded cell — then one synthetic closing brace
line. -/
theorem c6_ranges (lines : List (List Char)) (cellList : List (List Char))
    (hd : List Char × Nat)
    (hmono : ((preScan lines).map (fun x => x.2)).Pairwise (fun a b => a < b))
    (hsub : ∀ c ∈ cellList, c ∈ (preScan lines).map (fun x => x.1))
    (hhd : (preScan lines).head? = some hd) :
    genCellLibFile lines cellList
      = GenRes.ok (lines.take (hd.2 - 1)
          ++ (cellList.map (specRange lines (preScan lines))).flatten
          ++ [lc "\x7d"]) := by
  have hnd := preScan_keys_nodup lines
  have hmiss : cellList.filter
      (fun c => ¬ c ∈ (preScan lines).map (fun x => x.1)) = [] := by
    rw [List.filter_eq_nil]
    intro c hc
    have := hsub c hc
    simp [this]
  have hhd1 : ((preScan lines).map (fun x => x.1)).head? = some hd.1 := by
    rw [List.head?_map, hhd]
    rfl
  have hlookhd : locLookup (preScan lines) hd.1 = hd.2 := by
    cases hps : preScan lines with
    | nil =>
      rw [hps] at hhd
      simp at hhd
    | cons p rest =>
      rw [hps] at hhd
      have hp : p = hd := by simpa using hhd
      unfold locLookup
      rw [hp]
      show (match (if hd.1 = hd.1 then some hd.2 else dGet rest hd.1) with
            | some n => n
            | none => 0) = hd.2
      rw [if_pos rfl]
  simp only [genCellLibFile]
  rw [hmiss]
  rw [if_neg (by simp)]
  rw [hhd1]
  show GenRes.ok (List.take (locLookup (preScan lines) hd.1 - 1) lines ++
      (List.map (cellSlice lines (preScan lines)
        (List.map (fun x => x.1) (preScan lines))) cellList).flatten ++ [lc "\x7d"])
    = _
  rw [hlookhd]
  have hbody : cellList.map
        (cellSlice lines (preScan lines) ((preScan lines).map (fun x => x.1)))
      = cellList.map (specRange lines (preScan lines)) := by
    apply List.map_congr_left
    intro c hc
    exact cellSlice_eq_specRange lines (preScan lines) hmono hnd c (hsub c hc)
  rw [hbody]

/-- The subsetter scenario file: header on lines 1-9 (the library opens
on line 9), cells recorded on lines 10, 40 and 70, end of file at line
100. -/
def exC6Lines : List (List Char) :=
  (List.replicate 8 (lc "h : x;") ++ [lc "library (L) \x7b"])
  ++ ([lc "cell (C10) \x7b"] ++ List.replicate 29 (lc "a : b;"))
  ++ ([lc "cell (C40) \x7b"] ++ List.replicate 29 (lc "a : b;"))
  ++ ([lc "cell (C70) \x7b"] ++ List.replicate 30 (lc "a : b;"))

set_option maxRecDepth 8000 in
/-- Witness for C6: requesting exactly the cell recorded at line 40
writes original lines 1..9, then original lines 40..69, then one closing
brace line. -/
theorem c6_ranges_witness :
    genCellLibFile exC6Lines [lc "C40"]
      = GenRes.ok (exC6Lines.take 9
          ++ ([lc "C40"].map (specRange exC6Lines (preScan exC6Lines))).flatten
          ++ [lc "\x7d"]) ∧
    ([lc "C40"].map (specRange exC6Lines (preScan exC6Lines))).flatten
      = pySlice exC6Lines 39 69 :=
  ⟨c6_ranges exC6Lines [lc "C40"] (lc "C10", 10) (by decide) (by decide) (by decide),
   by decide⟩

end LibertyParse
